import Mathlib

/-!
Verification of the CNKI EndNote bibliometrics pipeline: a shallow embedding of
`cnki_parser.py` (record parser and corpus statistics) and `network_builder.py`
(co-authorship, institution and keyword co-occurrence graphs), with theorems
settling the specification claims.

Modelling conventions:
* Python strings are Lean `String`s; `str.strip()` is `String.trim`;
  `str.split('\n')` is `String.splitOn "\n"`; character classes `\d` and `\s`
  are `Char.isDigit` and `Char.isWhitespace`.
* A missing input file is modelled by `Option String` (`none` = the file does
  not exist); `FileNotFoundError` becomes the `Except.error` branch.
* The `networkx` undirected graph is modelled by an association list of
  unordered-pair keys with integer weights; `G.add_edge` / `G[a][b]['weight'] += 1`
  is `bumpAssoc`, `G.has_edge` queries are symmetric via `pairEq`.
* `collections.Counter` is the same association-list structure with exact
  (tuple) key equality.
* Python's stable `sorted(..., reverse=True)` is a stable descending
  insertion sort (`List.insertionSort` with a `≥`-style relation).
-/

/-- The `CnkiPaper` dataclass of `cnki_parser.py`, field for field (plus the
dynamically assigned `cnki_id` set by the `%W` branch). All defaults are the
zero values of the Python dataclass. -/
structure CnkiPaper where
  title : String := ""
  authors : List String := []
  institution : String := ""
  all_institutions : List String := []
  journal : String := ""
  year : Nat := 0
  volume : String := ""
  issue : String := ""
  pages : String := ""
  keywords : List String := []
  abstract : String := ""
  doi : String := ""
  url : String := ""
  issn : String := ""
  cn_code : String := ""
  citations : Nat := 0
  downloads : Nat := 0
  cnki_id : String := ""
deriving Repr, DecidableEq, Inhabited

/-- Python `str.strip()` on a character list: drop whitespace from both
ends. -/
def trimChars (cs : List Char) : List Char :=
  ((cs.dropWhile Char.isWhitespace).reverse.dropWhile Char.isWhitespace).reverse

/-- Python `str.strip()` (kernel-reducible form). -/
def strTrim (s : String) : String := String.mk (trimChars s.toList)

/-- Python `str.split(c)` for a one-character separator
(kernel-reducible form). -/
def splitOnChar (c : Char) (s : String) : List String :=
  (s.toList.splitOnP (fun x => x = c)).map String.mk

/-- The `%+` branch: `[i.strip() for i in value.split(';') if i.strip()]`. -/
def splitInsts (value : String) : List String :=
  ((splitOnChar ';' value).map strTrim).filter (fun i => i ≠ "")

/-- Delimiter class of the keyword split `re.split(r'[;；,，]', value)`. -/
def isKwDelim (c : Char) : Bool :=
  c = ';' ∨ c = '；' ∨ c = ',' ∨ c = '，'

/-- The `%K` branch: split on the delimiter class, trim, keep non-empty segments. -/
def splitKeywords (value : String) : List String :=
  (((value.toList.splitOnP isKwDelim).map (fun cs => strTrim (String.mk cs))).filter
    (fun k => k ≠ ""))

/-- Numeric value of a digit run (`int(...)` on the matched digits). -/
def digitsVal (ds : List Char) : Nat :=
  ds.foldl (fun acc c => acc * 10 + (c.toNat - '0'.toNat)) 0

/-- One attempt of the regex `(19|20)\d{2}` at the head of the character list:
two anchor characters `19` or `20` followed by two digits. -/
def matchYear4 : List Char → Option Nat
  | c1 :: c2 :: c3 :: c4 :: _ =>
    if ((c1 = '1' ∧ c2 = '9') ∨ (c1 = '2' ∧ c2 = '0')) ∧ c3.isDigit ∧ c4.isDigit then
      some (digitsVal [c1, c2, c3, c4])
    else none
  | _ => none

/-- Left-to-right scan of `re.search(r'(19|20)\d{2}', value)`: first position
where `matchYear4` succeeds. -/
def findYearAux : List Char → Option Nat
  | [] => none
  | c :: cs =>
    match matchYear4 (c :: cs) with
    | some y => some y
    | none => findYearAux cs

/-- The `re.search(r'(19|20)\d{2}', value)` followed by `int(group)`. -/
def findYear (value : String) : Option Nat :=
  findYearAux value.toList

/-- One attempt of `label[:：]?\s*(\d+)` at the head of the character list:
the literal label, an optional (ASCII or fullwidth) colon, whitespace, then a
non-empty maximal digit run. -/
def matchLabeledAt (label : List Char) (cs : List Char) : Option Nat :=
  if label.isPrefixOf cs then
    let rest := cs.drop label.length
    let rest2 := match rest with
      | ':' :: r => r
      | '：' :: r => r
      | r => r
    let ds := (rest2.dropWhile Char.isWhitespace).takeWhile Char.isDigit
    if ds = [] then none else some (digitsVal ds)
  else none

/-- Left-to-right scan for the labelled count pattern (`re.search`). -/
def findLabeledAux (label : List Char) : List Char → Option Nat
  | [] => none
  | c :: cs =>
    match matchLabeledAt label (c :: cs) with
    | some n => some n
    | none => findLabeledAux label cs

/-- The `re.search(r'被引[:：]?\s*(\d+)', value)` (and the `下载` variant) of the
`%Z` branch. -/
def findLabeled (label : List Char) (value : String) : Option Nat :=
  findLabeledAux label value.toList

/-- Line qualification and marker/value extraction of
`CnkiEndNoteParser._parse_record`: strip the line; it qualifies only if it
starts with `%` and has at least two characters; the marker is the first two
characters (represented by its second character, the first being `%`), the
value the trimmed remainder. -/
def markerSplit (line : String) : Option (Char × String) :=
  match trimChars line.toList with
  | '%' :: m :: valueChars => some (m, strTrim (String.mk valueChars))
  | _ => none

/-- The marker `elif` chain of `CnkiEndNoteParser._parse_record`
(`marker == '%T'` is represented by the second marker character `'T'`). -/
def dispatch (paper : CnkiPaper) (m : Char) (value : String) : CnkiPaper :=
  if m = 'T' then { paper with title := value }
    else if m = 'A' then
      if value ≠ "" then { paper with authors := paper.authors ++ [value] } else paper
    else if m = '+' then
      if value ≠ "" then
        let institutions := splitInsts value
        { paper with all_institutions := institutions,
                     institution := institutions.headD "" }
      else paper
    else if m = 'J' then { paper with journal := value }
    else if m = 'D' then
      match findYear value with
      | some y => { paper with year := y }
      | none => paper
    else if m = 'V' then { paper with volume := value }
    else if m = 'N' then { paper with issue := value }
    else if m = 'P' then { paper with pages := value }
    else if m = 'K' then
      if value ≠ "" then { paper with keywords := splitKeywords value } else paper
    else if m = 'X' then { paper with abstract := value }
    else if m = 'R' then { paper with doi := value }
    else if m = '@' then { paper with issn := value }
    else if m = 'L' then { paper with cn_code := value }
    else if m = 'U' then { paper with url := value }
    else if m = 'W' then { paper with cnki_id := value }
    else if m = 'Z' then
      let p1 := match findLabeled ['被', '引'] value with
        | some n => { paper with citations := n }
        | none => paper
      match findLabeled ['下', '载'] value with
      | some n => { p1 with downloads := n }
      | none => p1
    else paper

/-- One iteration of the line loop of `CnkiEndNoteParser._parse_record`:
lines that do not qualify are skipped, the rest dispatch on their marker. -/
def processLine (paper : CnkiPaper) (line0 : String) : CnkiPaper :=
  match markerSplit line0 with
  | some (m, value) => dispatch paper m value
  | none => paper

/-- The `CnkiEndNoteParser._parse_record`: fold the line loop over
`record.strip().split('\n')` starting from a default `CnkiPaper`. -/
def parse_record (record : String) : CnkiPaper :=
  (splitOnChar '\n' (strTrim record)).foldl processLine {}

/-- The lookahead `(?=%0\s)` of `re.split`: true when the character list
starts with `%0` followed by a whitespace character. -/
def isRecStart : List Char → Bool
  | '%' :: '0' :: c :: _ => c.isWhitespace
  | _ => false

/-- Accumulating scan of `re.split(r'(?=%0\s)', content)`: close the current
block at every position where the lookahead matches. -/
def splitRecordsAux : List Char → List Char → List String
  | [], acc => [String.mk acc.reverse]
  | c :: cs, acc =>
    if isRecStart (c :: cs) then
      String.mk acc.reverse :: splitRecordsAux cs [c]
    else
      splitRecordsAux cs (c :: acc)

/-- The `re.split(r'(?=%0\s)', content)`. -/
def splitRecords (content : String) : List String :=
  splitRecordsAux content.toList []

/-- The block loop of `CnkiEndNoteParser.parse`: strip each block, skip blocks
that are empty or shorter than 50 characters, decode the rest, and keep only
records with a non-empty title. -/
def parseContent (content : String) : List CnkiPaper :=
  (splitRecords content).foldl
    (fun acc r =>
      let r := strTrim r
      if r = "" ∨ r.length < 50 then acc
      else
        let paper := parse_record r
        if paper.title = "" then acc else acc ++ [paper])
    []

/-- The `CnkiEndNoteParser.parse`: raises `FileNotFoundError` when the input file
does not exist (`none`), otherwise decodes the file content. -/
def parse (file : Option String) : Except String (List CnkiPaper) :=
  match file with
  | none => Except.error "FileNotFoundError"
  | some content => Except.ok (parseContent content)

/-- The `stats` dictionary computed by `quick_parse`. -/
structure CorpusStats where
  total : Nat
  years : List Nat
  authors : Nat
  journals : Nat
  institutions : Nat
deriving Repr, DecidableEq

/-- The statistics block of `quick_parse`: `sorted(set(...))` is the ascending
sort of the distinct elements, `len(set(...))` the number of distinct
elements. -/
def statsOf (papers : List CnkiPaper) : CorpusStats :=
  { total := papers.length
    years := List.insertionSort (· ≤ ·)
      (((papers.map (fun p => p.year)).filter (fun y => 2000 < y)).dedup)
    authors := ((papers.flatMap (fun p => p.authors)).dedup).length
    journals := (((papers.map (fun p => p.journal)).filter (fun j => j ≠ "")).dedup).length
    institutions :=
      (((papers.map (fun p => p.institution)).filter (fun i => i ≠ "")).dedup).length }

/-! ## Weighted undirected graphs (the networkx interface used by `network_builder.py`) -/

section Assoc

variable {κ : Type} (eqk : κ → κ → Bool)

/-- Increment the counter of the first key matching `eqk`, or append a fresh
entry with count 1: this is `if G.has_edge(a,b): G[a][b]['weight'] += 1 else
G.add_edge(a,b,weight=1)` (and likewise `Counter[key] += 1`). -/
def bumpAssoc : List (κ × Nat) → κ → List (κ × Nat)
  | [], k => [(k, 1)]
  | e :: es, k => if eqk e.1 k then (e.1, e.2 + 1) :: es else e :: bumpAssoc es k

/-- Counter of the first key matching `eqk`, if any. -/
def lookupAssoc : List (κ × Nat) → κ → Option Nat
  | [], _ => none
  | e :: es, k => if eqk e.1 k then some e.2 else lookupAssoc es k

end Assoc

/-- Key equality for undirected edges: `{a,b} = {c,d}` as unordered pairs. -/
def pairEq (p q : String × String) : Bool :=
  (p.1 == q.1 && p.2 == q.2) || (p.1 == q.2 && p.2 == q.1)

/-- A `networkx.Graph` restricted to the operations `network_builder.py`
performs: a weighted undirected edge list. Nodes exist only through edges. -/
structure Graph where
  edges : List ((String × String) × Nat)
deriving Repr, DecidableEq

/-- The empty graph `nx.Graph()`. -/
def Graph.empty : Graph := ⟨[]⟩

/-- The `G.add_edge(p.1, p.2, weight=1)` / `G[p.1][p.2]['weight'] += 1`. -/
def Graph.addEdgeInc (G : Graph) (p : String × String) : Graph :=
  ⟨bumpAssoc pairEq G.edges p⟩

/-- The weight of the undirected edge `{p.1, p.2}`, if present. -/
def Graph.weight? (G : Graph) (p : String × String) : Option Nat :=
  lookupAssoc pairEq G.edges p

/-- The `G.has_edge(a, b)`. -/
def Graph.hasEdge (G : Graph) (a b : String) : Bool :=
  (G.weight? (a, b)).isSome

/-- Add/increment an edge for every generated pair, in order. -/
def Graph.addPairs (G : Graph) (ps : List (String × String)) : Graph :=
  ps.foldl Graph.addEdgeInc G

/-- The `G.nodes()`: exactly the endpoints of the edges (edge-driven node
creation; only membership is relevant to the claims). -/
def Graph.nodes (G : Graph) : List String :=
  (G.edges.map (fun e => e.1.1) ++ G.edges.map (fun e => e.1.2)).dedup

/-- The inner double loop `for i, a1 in enumerate(xs): for a2 in xs[i+1:]`:
all ordered-position pairs of a list. -/
def recordPairs : List String → List (String × String)
  | [] => []
  | x :: rest => rest.map (fun y => (x, y)) ++ recordPairs rest

/-! ## `NetworkBuilder.build_coauthorship` -/

/-- The `author_papers[a].append(paper)` on a `defaultdict(list)`: update the
group of key `a` or append a fresh group (dict insertion order preserved). -/
def addToGroup : List (String × List CnkiPaper) → String → CnkiPaper →
    List (String × List CnkiPaper)
  | [], a, p => [(a, [p])]
  | g :: gs, a, p =>
    if g.1 = a then (g.1, g.2 ++ [p]) :: gs else g :: addToGroup gs a p

/-- The first pass of `build_coauthorship`: for every paper and every
non-empty author name, append the paper to that author's group. -/
def authorGroups (papers : List CnkiPaper) : List (String × List CnkiPaper) :=
  papers.foldl
    (fun gs p =>
      p.authors.foldl (fun gs a => if a ≠ "" then addToGroup gs a p else gs) gs)
    []

/-- The `author_papers[a]` (`[]` for an absent key). -/
def groupOf (papers : List CnkiPaper) (a : String) : List CnkiPaper :=
  (((authorGroups papers).find? (fun g => g.1 = a)).map (fun g => g.2)).getD []

/-- Node attribute `paper_count` of the co-authorship graph:
`len(author_papers[node])`. -/
def coauthPaperCount (papers : List CnkiPaper) (a : String) : Nat :=
  (groupOf papers a).length

/-- Node attribute `citations` of the co-authorship graph:
`sum(p.citations for p in author_papers[node])`. -/
def coauthCitations (papers : List CnkiPaper) (a : String) : Nat :=
  ((groupOf papers a).map (fun p => p.citations)).sum

/-- The `sorted(author_papers.items(), key=lambda x: len(x[1]), reverse=True)[:top_n]`
followed by taking the names: a stable descending sort by group size. -/
def topAuthorNames (papers : List CnkiPaper) (top_n : Nat) : List String :=
  ((List.insertionSort (fun x y => y.2.length ≤ x.2.length) (authorGroups papers)).take
    top_n).map (fun g => g.1)

/-- The `[a for a in paper.authors if a in top_names]`. -/
def restrictAuthors (papers : List CnkiPaper) (top_n : Nat) (p : CnkiPaper) :
    List String :=
  p.authors.filter (fun a => a ∈ topAuthorNames papers top_n)

/-- The `NetworkBuilder.build_coauthorship`: add/increment an edge for every
ordered pair of the top-restricted author list of every paper. -/
def build_coauthorship (papers : List CnkiPaper) (top_n : Nat) : Graph :=
  papers.foldl
    (fun G p => G.addPairs (recordPairs (restrictAuthors papers top_n p)))
    Graph.empty

/-! ## `NetworkBuilder.build_institution` -/

/-- The `NetworkBuilder.build_institution`: for every paper listing at least two
institutions, add/increment an edge for every ordered pair of
`all_institutions`. -/
def build_institution (papers : List CnkiPaper) : Graph :=
  papers.foldl
    (fun G p =>
      if p.all_institutions.length < 2 then G
      else G.addPairs (recordPairs p.all_institutions))
    Graph.empty

/-- Node attribute `paper_count` of the institution graph:
`sum(1 for p in papers if node in p.all_institutions)`. -/
def instPaperCount (papers : List CnkiPaper) (node : String) : Nat :=
  papers.countP (fun p => node ∈ p.all_institutions)

/-! ## `NetworkBuilder.build_keywords` -/

/-- The `keyword_freq[kw]`: occurrences of the (non-empty) keyword over the
corpus (`for kw in paper.keywords: if kw: keyword_freq[kw] += 1`). -/
def keywordFreq (papers : List CnkiPaper) (kw : String) : Nat :=
  (papers.flatMap (fun p => p.keywords.filter (fun k => k ≠ ""))).count kw

/-- The `kw in valid_keywords`: the keyword is a key of the frequency counter
(count at least 1) whose count is at least `min_freq`. -/
def validKw (papers : List CnkiPaper) (min_freq : Nat) (kw : String) : Bool :=
  1 ≤ keywordFreq papers kw ∧ min_freq ≤ keywordFreq papers kw

/-- The `tuple(sorted([a, b]))` on two strings. -/
def sortPair (a b : String) : String × String :=
  if a ≤ b then (a, b) else (b, a)

/-- The keyword pair loop: all ordered-position pairs of distinct keywords,
each stored as its sorted pair. -/
def kwRecordPairs : List String → List (String × String)
  | [] => []
  | x :: rest =>
    (rest.filterMap (fun y => if x ≠ y then some (sortPair x y) else none)) ++
      kwRecordPairs rest

/-- The `[kw for kw in paper.keywords if kw in valid_keywords]`. -/
def restrictKeywords (papers : List CnkiPaper) (min_freq : Nat) (p : CnkiPaper) :
    List String :=
  p.keywords.filter (validKw papers min_freq)

/-- The co-occurrence `Counter` of `build_keywords`, keyed by sorted pairs
with exact (tuple) key equality. -/
def kwCounter (papers : List CnkiPaper) (min_freq : Nat) :
    List ((String × String) × Nat) :=
  (papers.flatMap (fun p => kwRecordPairs (restrictKeywords papers min_freq p))).foldl
    (bumpAssoc (fun p q => p == q)) []

/-- The `NetworkBuilder.build_keywords`: keep the counter items of weight at
least 2 as edges (each `G.add_edge(kw1, kw2, weight=weight)` with distinct
keys creates exactly that edge). -/
def build_keywords (papers : List CnkiPaper) (min_freq : Nat) : Graph :=
  ⟨(kwCounter papers min_freq).filter (fun e => 2 ≤ e.2)⟩

/-- Node attribute `freq` assigned to every keyword node:
`G.nodes[kw]['freq'] = keyword_freq[kw]`. -/
def kwFreqAttr (papers : List CnkiPaper) (kw : String) : Nat :=
  keywordFreq papers kw

/-! ## State-passing wrappers

`NetworkBuilder` holds `self.papers` and `quick_parse` passes the parsed
list to the statistics block; none of the translated statements assigns to
`self.papers`, to a record field, or to any element of the list, so the
state-passing translation of each operation returns the record store
unchanged alongside its result. -/

/-- State-passing `build_coauthorship`. -/
def build_coauthorshipS (papers : List CnkiPaper) (top_n : Nat) :
    Graph × List CnkiPaper :=
  (build_coauthorship papers top_n, papers)

/-- State-passing `build_institution`. -/
def build_institutionS (papers : List CnkiPaper) :
    Graph × List CnkiPaper :=
  (build_institution papers, papers)

/-- State-passing `build_keywords`. -/
def build_keywordsS (papers : List CnkiPaper) (min_freq : Nat) :
    Graph × List CnkiPaper :=
  (build_keywords papers min_freq, papers)

/-- State-passing statistics aggregation of `quick_parse`. -/
def statsOfS (papers : List CnkiPaper) : CorpusStats × List CnkiPaper :=
  (statsOf papers, papers)

/-! ## Claim-side field-line extractors

These express, in the words of the specification, which lines of a record
block carry a given field, and what value the specification expects them to
contribute. -/

/-- The value of a qualifying title-marker (`%T`) line, if the line is one. -/
def titleValue? (line : String) : Option String :=
  match markerSplit line with
  | some (m, v) => if m = 'T' then some v else none
  | none => none

/-- The value of a qualifying institution-list-marker (`%+`) line whose value
is non-empty, if the line is one. -/
def instValue? (line : String) : Option String :=
  match markerSplit line with
  | some (m, v) => if m = '+' ∧ v ≠ "" then some v else none
  | none => none

/-- The value of a qualifying institution-list-marker (`%+`) line, empty or
not (the reading of claim C6: every such marker line counts). -/
def instMarkerValue? (line : String) : Option String :=
  match markerSplit line with
  | some (m, v) => if m = '+' then some v else none
  | none => none

/-- The value of a qualifying date-marker (`%D`) line, if the line is one. -/
def dateValue? (line : String) : Option String :=
  match markerSplit line with
  | some (m, v) => if m = 'D' then some v else none
  | none => none

/-- The lines of a record block, as `_parse_record` iterates them. -/
def blockLines (record : String) : List String :=
  splitOnChar '\n' (strTrim record)

/-- Values of the title-marker lines of a block, in order. -/
def titleLineValues (record : String) : List String :=
  (blockLines record).filterMap titleValue?

/-- Values of the non-empty-valued institution-marker lines of a block. -/
def instLineValues (record : String) : List String :=
  (blockLines record).filterMap instValue?

/-- Values of all institution-marker lines of a block (claim C6 reading). -/
def instMarkerValues (record : String) : List String :=
  (blockLines record).filterMap instMarkerValue?

/-- Values of the date-marker lines of a block, in order. -/
def dateLineValues (record : String) : List String :=
  (blockLines record).filterMap dateValue?

/-- The `matchYear4` at position `i` of the character list: the year pattern
matched as a substring starting at index `i`. -/
def matchYearAt (cs : List Char) (i : Nat) : Option Nat :=
  matchYear4 (cs.drop i)

/-- Specification-side co-occurrence count of an unordered pair `{a, b}` in
one list: ordered-position pairs whose values are `a` then `b` or `b` then
`a`. -/
def pairOcc (a b : String) : List String → Nat
  | [] => 0
  | x :: rest =>
    ((if x = a then rest.count b else 0) + (if x = b then rest.count a else 0)) +
      pairOcc a b rest

/-- Claim-side accumulated keyword co-occurrence count of `{a, b}` over the
whole corpus, over the full (unrestricted) keyword lists. -/
def rawKwCooccur (papers : List CnkiPaper) (a b : String) : Nat :=
  (papers.map (fun p => pairOcc a b p.keywords)).sum

/-! ## Association-list lemmas -/

/-- The `combineOpt o n`: the counter value after `n` further increments starting
from optional value `o` (`none` = key absent). -/
def combineOpt : Option Nat → Nat → Option Nat
  | none, 0 => none
  | o, n => some (o.getD 0 + n)

/-- No two entries of the association list have matching keys. -/
def KeysDistinct {κ : Type} (eqk : κ → κ → Bool) (c : List (κ × Nat)) : Prop :=
  c.Pairwise (fun e1 e2 => eqk e1.1 e2.1 = false)

/-- All co-authorship pairs generated over the corpus, in generation order. -/
def coauthPairs (papers : List CnkiPaper) (top_n : Nat) : List (String × String) :=
  papers.flatMap (fun p => recordPairs (restrictAuthors papers top_n p))

/-- All institution pairs generated over the corpus. -/
def instPairs (papers : List CnkiPaper) : List (String × String) :=
  papers.flatMap (fun p => recordPairs p.all_institutions)

/-- All restricted keyword pairs generated over the corpus. -/
def kwPairs (papers : List CnkiPaper) (min_freq : Nat) : List (String × String) :=
  papers.flatMap (fun p => kwRecordPairs (restrictKeywords papers min_freq p))

/-- Number of records in which both `a` and `b` occur in the top-restricted
author list. -/
def coauthCooccurCount (papers : List CnkiPaper) (top_n : Nat) (a b : String) : Nat :=
  papers.countP (fun p =>
    decide (a ∈ restrictAuthors papers top_n p ∧ b ∈ restrictAuthors papers top_n p))

/-- Number of records in which both `a` and `b` occur in `all_institutions`. -/
def instCooccurCount (papers : List CnkiPaper) (a b : String) : Nat :=
  papers.countP (fun p =>
    decide (a ∈ p.all_institutions ∧ b ∈ p.all_institutions))

/-- Number of records in which both `a` and `b` occur in the restricted
keyword list. -/
def kwCooccurCount (papers : List CnkiPaper) (min_freq : Nat) (a b : String) : Nat :=
  papers.countP (fun p =>
    decide (a ∈ restrictKeywords papers min_freq p ∧
            b ∈ restrictKeywords papers min_freq p))

/-- The `author_papers[a]` for an arbitrary group list. -/
def lookupGroup (gs : List (String × List CnkiPaper)) (a : String) : List CnkiPaper :=
  ((gs.find? (fun g => g.1 = a)).map (fun g => g.2)).getD []

/-! ## Concrete corpora and blocks used by counterexamples and witnesses -/

/-- A record block with two institution-marker lines whose last one has an
empty value. -/
def badInstBlock : String := "%+ A大学;B大学\n%+"

/-- One paper listing the same author twice. -/
def selfLoopCorpus : List CnkiPaper := [{ authors := ["王", "王"] }]

/-- One paper listing one author twice and a second author once, with a
citation count. -/
def multiAuthorCorpus : List CnkiPaper :=
  [{ authors := ["张", "张", "李"], citations := 7 }]

/-- One paper listing a single author twice and nobody else. -/
def dupAuthorCorpus : List CnkiPaper := [{ authors := ["赵", "赵"] }]

/-- Two duplicate papers with two authors, institutions and keywords each,
and a third paper with unrelated keywords. -/
def nodupCorpus : List CnkiPaper :=
  [{ authors := ["甲", "乙"], all_institutions := ["大学一", "大学二"],
     keywords := ["数字", "审计"], citations := 3 },
   { authors := ["甲", "乙"], all_institutions := ["大学一", "大学二"],
     keywords := ["数字", "审计"], citations := 5 },
   { keywords := ["机器", "风险"] }]

section AssocLemmas

variable {κ : Type} {eqk : κ → κ → Bool}

theorem lookupAssoc_bumpAssoc
    (hsymm : ∀ a b, eqk a b = true → eqk b a = true)
    (htrans : ∀ a b c, eqk a b = true → eqk b c = true → eqk a c = true)
    (c : List (κ × Nat)) (q k : κ) :
    lookupAssoc eqk (bumpAssoc eqk c q) k =
      if eqk q k then some ((lookupAssoc eqk c k).getD 0 + 1)
      else lookupAssoc eqk c k := by
  induction c with
  | nil =>
    by_cases h : eqk q k = true <;> simp [bumpAssoc, lookupAssoc, h]
  | cons e es ih =>
    by_cases he : eqk e.1 q = true
    · by_cases hk : eqk q k = true
      · have h1 : eqk e.1 k = true := htrans _ _ _ he hk
        simp [bumpAssoc, lookupAssoc, he, hk, h1]
      · have h1 : eqk e.1 k = false := by
          by_contra hcon
          have h2 : eqk e.1 k = true := by
            cases h3 : eqk e.1 k
            · exact absurd h3 hcon
            · rfl
          exact hk (htrans _ _ _ (hsymm _ _ he) h2)
        simp [bumpAssoc, lookupAssoc, he, hk, h1]
    · by_cases h1 : eqk e.1 k = true
      · have hk : eqk q k = false := by
          by_contra hcon
          have h2 : eqk q k = true := by
            cases h3 : eqk q k
            · exact absurd h3 hcon
            · rfl
          exact he (htrans _ _ _ h1 (hsymm _ _ h2))
        simp [bumpAssoc, lookupAssoc, he, h1, hk]
      · by_cases hk : eqk q k = true <;>
          simp [bumpAssoc, lookupAssoc, he, h1, hk, ih]

theorem lookupAssoc_foldl_bump
    (hsymm : ∀ a b, eqk a b = true → eqk b a = true)
    (htrans : ∀ a b c, eqk a b = true → eqk b c = true → eqk a c = true)
    (ps : List κ) (c : List (κ × Nat)) (k : κ) :
    lookupAssoc eqk (ps.foldl (bumpAssoc eqk) c) k =
      combineOpt (lookupAssoc eqk c k) (ps.countP (fun q => eqk q k)) := by
  induction ps generalizing c with
  | nil =>
    cases h : lookupAssoc eqk c k <;> simp [combineOpt, h]
  | cons q ps ih =>
    have hstep := lookupAssoc_bumpAssoc hsymm htrans c q k
    by_cases hq : eqk q k = true
    · rw [List.foldl_cons, ih, hstep]
      simp only [hq, if_pos]
      cases h : lookupAssoc eqk c k <;>
        simp [combineOpt, List.countP_cons, hq, h] <;> omega
    · rw [List.foldl_cons, ih, hstep]
      simp only [hq, if_neg, Bool.false_eq_true, not_false_iff]
      simp [List.countP_cons, hq]

theorem lookupAssoc_eq_none_of_no_match
    (c : List (κ × Nat)) (k : κ) (h : ∀ e ∈ c, ¬ eqk e.1 k = true) :
    lookupAssoc eqk c k = none := by
  induction c with
  | nil => rfl
  | cons e es ih =>
    have h1 : ¬ eqk e.1 k = true := h e (by simp)
    have h2 : eqk e.1 k = false := by
      cases h3 : eqk e.1 k
      · rfl
      · exact absurd h3 h1
    simp [lookupAssoc, h2]
    exact ih (fun e' he' => h e' (by simp [he']))

theorem lookupAssoc_some_mem
    (c : List (κ × Nat)) (k : κ) (w : Nat)
    (h : lookupAssoc eqk c k = some w) :
    ∃ e ∈ c, eqk e.1 k = true ∧ e.2 = w := by
  induction c with
  | nil => simp [lookupAssoc] at h
  | cons e es ih =>
    by_cases he : eqk e.1 k = true
    · refine ⟨e, by simp, he, ?_⟩
      simp [lookupAssoc, he] at h
      omega
    · have h2 : eqk e.1 k = false := by
        cases h3 : eqk e.1 k
        · rfl
        · exact absurd h3 he
      simp [lookupAssoc, h2] at h
      obtain ⟨e', he', hq, hw⟩ := ih h
      exact ⟨e', by simp [he'], hq, hw⟩

theorem lookupAssoc_isSome_of_mem
    (c : List (κ × Nat)) (k : κ) (e : κ × Nat)
    (he : e ∈ c) (hq : eqk e.1 k = true) :
    (lookupAssoc eqk c k).isSome = true := by
  induction c with
  | nil => simp at he
  | cons e' es ih =>
    by_cases h1 : eqk e'.1 k = true
    · simp [lookupAssoc, h1]
    · have h2 : eqk e'.1 k = false := by
        cases h3 : eqk e'.1 k
        · rfl
        · exact absurd h3 h1
      rcases List.mem_cons.mp he with h | h
      · subst h
        exact absurd hq h1
      · simp [lookupAssoc, h2]
        exact ih h

theorem bumpAssoc_key_mem
    (c : List (κ × Nat)) (q : κ) (e : κ × Nat)
    (he : e ∈ bumpAssoc eqk c q) :
    e.1 ∈ c.map Prod.fst ∨ e.1 = q := by
  induction c with
  | nil =>
    right
    simp [bumpAssoc] at he
    rw [he]
  | cons e' es ih =>
    by_cases h1 : eqk e'.1 q = true
    · simp only [bumpAssoc, h1, if_pos] at he
      rcases List.mem_cons.mp he with h | h
      · left
        rw [h]
        exact List.mem_map.mpr ⟨e', List.mem_cons_self e' es, rfl⟩
      · left
        exact List.mem_map_of_mem Prod.fst (List.mem_cons_of_mem e' h)
    · have h2 : eqk e'.1 q = false := by
        cases h3 : eqk e'.1 q
        · rfl
        · exact absurd h3 h1
      simp only [bumpAssoc, h2, Bool.false_eq_true, if_neg, not_false_iff] at he
      rcases List.mem_cons.mp he with h | h
      · left
        rw [h]
        exact List.mem_map_of_mem Prod.fst (List.mem_cons_self e' es)
      · rcases ih h with h' | h'
        · left
          obtain ⟨x, hx, hx2⟩ := List.mem_map.mp h'
          exact List.mem_map.mpr ⟨x, List.mem_cons_of_mem e' hx, hx2⟩
        · right
          exact h'

theorem foldl_bump_key_mem
    (ps : List κ) (c : List (κ × Nat)) (e : κ × Nat)
    (he : e ∈ ps.foldl (bumpAssoc eqk) c) :
    e.1 ∈ c.map Prod.fst ∨ e.1 ∈ ps := by
  induction ps generalizing c with
  | nil =>
    left
    exact List.mem_map_of_mem Prod.fst he
  | cons q ps ih =>
    rw [List.foldl_cons] at he
    rcases ih (bumpAssoc eqk c q) he with h | h
    · obtain ⟨e', he', hfst⟩ := List.mem_map.mp h
      rcases bumpAssoc_key_mem c q e' he' with h' | h'
      · left
        rw [← hfst]
        exact h'
      · right
        rw [← hfst, h']
        exact List.mem_cons_self q ps
    · right
      exact List.mem_cons_of_mem q h

end AssocLemmas


section AssocLemmas2

variable {κ : Type} {eqk : κ → κ → Bool}

theorem keysDistinct_bumpAssoc
    (c : List (κ × Nat)) (q : κ) (hc : KeysDistinct eqk c) :
    KeysDistinct eqk (bumpAssoc eqk c q) := by
  induction c with
  | nil =>
    simp [bumpAssoc, KeysDistinct]
  | cons e es ih =>
    rcases List.pairwise_cons.mp hc with ⟨hhead, htail⟩
    by_cases h1 : eqk e.1 q = true
    · simp only [bumpAssoc, h1, if_pos]
      exact List.pairwise_cons.mpr ⟨hhead, htail⟩
    · have h2 : eqk e.1 q = false := by
        cases h3 : eqk e.1 q
        · rfl
        · exact absurd h3 h1
      simp only [bumpAssoc, h2, Bool.false_eq_true, if_neg, not_false_iff]
      refine List.pairwise_cons.mpr ⟨?_, ih htail⟩
      intro e' he'
      rcases bumpAssoc_key_mem es q e' he' with h | h
      · obtain ⟨x, hx, hx2⟩ := List.mem_map.mp h
        have := hhead x hx
        cases h4 : eqk e.1 e'.1
        · rfl
        · rw [← hx2] at h4
          rw [this] at h4
          exact absurd h4 (by simp)
      · rw [h]
        exact h2

theorem keysDistinct_foldl_bump
    (ps : List κ) (c : List (κ × Nat)) (hc : KeysDistinct eqk c) :
    KeysDistinct eqk (ps.foldl (bumpAssoc eqk) c) := by
  induction ps generalizing c with
  | nil => exact hc
  | cons q ps ih =>
    rw [List.foldl_cons]
    exact ih _ (keysDistinct_bumpAssoc c q hc)

theorem lookupAssoc_filter
    (hsymm : ∀ a b, eqk a b = true → eqk b a = true)
    (htrans : ∀ a b c, eqk a b = true → eqk b c = true → eqk a c = true)
    (c : List (κ × Nat)) (f : κ × Nat → Bool) (k : κ)
    (hc : KeysDistinct eqk c) :
    lookupAssoc eqk (c.filter f) k =
      match c.find? (fun e => eqk e.1 k) with
      | some e => if f e then some e.2 else none
      | none => none := by
  induction c with
  | nil => rfl
  | cons e es ih =>
    rcases List.pairwise_cons.mp hc with ⟨hhead, htail⟩
    by_cases h1 : eqk e.1 k = true
    · have hnone : ∀ e' ∈ es, ¬ eqk e'.1 k = true := by
        intro e' he' hcon
        have h4 := hhead e' he'
        have h5 : eqk e.1 e'.1 = true := htrans _ _ _ h1 (hsymm _ _ hcon)
        rw [h4] at h5
        exact absurd h5 (by simp)
      have hfind : (e :: es).find? (fun e => eqk e.1 k) = some e := by
        simp [List.find?, h1]
      rw [hfind]
      by_cases hf : f e = true
      · simp only [List.filter_cons, hf, if_pos]
        simp [lookupAssoc, h1, hf]
      · have hf2 : f e = false := by
          cases h3 : f e
          · rfl
          · exact absurd h3 hf
        simp only [List.filter_cons, hf2, Bool.false_eq_true, if_neg, not_false_iff]
        rw [lookupAssoc_eq_none_of_no_match _ k
          (fun e' he' => hnone e' (List.mem_of_mem_filter he'))]
    · have h2 : eqk e.1 k = false := by
        cases h3 : eqk e.1 k
        · rfl
        · exact absurd h3 h1
      have hfind : (e :: es).find? (fun e => eqk e.1 k) =
          es.find? (fun e => eqk e.1 k) := by
        simp [List.find?, h2]
      rw [hfind]
      by_cases hf : f e = true
      · simp only [List.filter_cons, hf, if_pos]
        rw [lookupAssoc]
        simp only [h2, Bool.false_eq_true, if_neg, not_false_iff]
        exact ih htail
      · have hf2 : f e = false := by
          cases h3 : f e
          · rfl
          · exact absurd h3 hf
        simp only [List.filter_cons, hf2, Bool.false_eq_true, if_neg, not_false_iff]
        exact ih htail

theorem lookupAssoc_congr
    {eqk2 : κ → κ → Bool} (c : List (κ × Nat)) (k k2 : κ)
    (h : ∀ e ∈ c, eqk e.1 k = eqk2 e.1 k2) :
    lookupAssoc eqk c k = lookupAssoc eqk2 c k2 := by
  induction c with
  | nil => rfl
  | cons e es ih =>
    have h1 := h e (by simp)
    rw [lookupAssoc, lookupAssoc, h1]
    cases h2 : eqk2 e.1 k2 <;>
      simp [ih (fun e' he' => h e' (by simp [he']))]

end AssocLemmas2

/-! ## Properties of `pairEq` -/

theorem pairEq_refl (p : String × String) : pairEq p p = true := by
  simp [pairEq]

theorem pairEq_symm (p q : String × String) (h : pairEq p q = true) :
    pairEq q p = true := by
  simp only [pairEq, Bool.or_eq_true, Bool.and_eq_true, beq_iff_eq] at h ⊢
  tauto

theorem pairEq_trans (p q r : String × String)
    (h1 : pairEq p q = true) (h2 : pairEq q r = true) : pairEq p r = true := by
  simp only [pairEq, Bool.or_eq_true, Bool.and_eq_true, beq_iff_eq] at h1 h2 ⊢
  rcases h1 with ⟨ha, hb⟩ | ⟨ha, hb⟩ <;> rcases h2 with ⟨hc, hd⟩ | ⟨hc, hd⟩
  · exact Or.inl ⟨ha.trans hc, hb.trans hd⟩
  · exact Or.inr ⟨ha.trans hc, hb.trans hd⟩
  · exact Or.inr ⟨ha.trans hd, hb.trans hc⟩
  · exact Or.inl ⟨ha.trans hd, hb.trans hc⟩

theorem pairEq_iff (p q : String × String) :
    pairEq p q = true ↔ ((p.1 = q.1 ∧ p.2 = q.2) ∨ (p.1 = q.2 ∧ p.2 = q.1)) := by
  simp [pairEq]

theorem beq_symm_pair (a b : String × String) (h : (a == b) = true) :
    (b == a) = true := by
  simp only [beq_iff_eq] at h ⊢
  exact h.symm

theorem beq_trans_pair (a b c : String × String)
    (h1 : (a == b) = true) (h2 : (b == c) = true) : (a == c) = true := by
  simp only [beq_iff_eq] at h1 h2 ⊢
  exact h1.trans h2


/-! ## Per-field behaviour of the line dispatch -/

theorem dispatch_fields (p : CnkiPaper) (m : Char) (v : String) :
    (dispatch p m v).title = (if m = 'T' then v else p.title) ∧
    (dispatch p m v).all_institutions =
      (if m = '+' ∧ v ≠ "" then splitInsts v else p.all_institutions) ∧
    (dispatch p m v).institution =
      (if m = '+' ∧ v ≠ "" then (splitInsts v).headD "" else p.institution) ∧
    (dispatch p m v).year =
      (if m = 'D' then (findYear v).getD p.year else p.year) := by
  unfold dispatch
  by_cases h1 : m = 'T'
  · subst h1; simp
  by_cases h2 : m = 'A'
  · subst h2; simp; split <;> simp
  by_cases h3 : m = '+'
  · subst h3; simp; split <;> simp_all
  by_cases h4 : m = 'J'
  · subst h4; simp
  by_cases h5 : m = 'D'
  · subst h5; simp; split <;> simp_all
  by_cases h6 : m = 'V'
  · subst h6; simp
  by_cases h7 : m = 'N'
  · subst h7; simp
  by_cases h8 : m = 'P'
  · subst h8; simp
  by_cases h9 : m = 'K'
  · subst h9; simp; split <;> simp
  by_cases h10 : m = 'X'
  · subst h10; simp
  by_cases h11 : m = 'R'
  · subst h11; simp
  by_cases h12 : m = '@'
  · subst h12; simp
  by_cases h13 : m = 'L'
  · subst h13; simp
  by_cases h14 : m = 'U'
  · subst h14; simp
  by_cases h15 : m = 'W'
  · subst h15; simp
  by_cases h16 : m = 'Z'
  · subst h16; simp
    constructor
    · split <;> split <;> rfl
    constructor
    · split <;> split <;> rfl
    constructor
    · split <;> split <;> rfl
    · split <;> split <;> rfl
  simp [h1, h2, h3, h4, h5, h6, h7, h8, h9, h10, h11, h12, h13, h14, h15, h16]

theorem processLine_title (p : CnkiPaper) (l : String) :
    (processLine p l).title =
      match titleValue? l with
      | some v => v
      | none => p.title := by
  unfold processLine titleValue?
  cases h : markerSplit l with
  | none => rfl
  | some mv =>
    obtain ⟨m, v⟩ := mv
    by_cases hm : m = 'T'
    · subst hm
      simp [(dispatch_fields p 'T' v).1]
    · simp [(dispatch_fields p m v).1, hm]

theorem processLine_insts (p : CnkiPaper) (l : String) :
    (processLine p l).all_institutions =
      (match instValue? l with
       | some v => splitInsts v
       | none => p.all_institutions) ∧
    (processLine p l).institution =
      (match instValue? l with
       | some v => (splitInsts v).headD ""
       | none => p.institution) := by
  unfold processLine instValue?
  cases h : markerSplit l with
  | none => exact ⟨rfl, rfl⟩
  | some mv =>
    obtain ⟨m, v⟩ := mv
    obtain ⟨-, hA, hI, -⟩ := dispatch_fields p m v
    dsimp only
    by_cases hm : m = '+' ∧ v ≠ ""
    · constructor
      · rw [hA, if_pos hm, if_pos hm]
      · rw [hI, if_pos hm, if_pos hm]
    · constructor
      · rw [hA, if_neg hm, if_neg hm]
      · rw [hI, if_neg hm, if_neg hm]

theorem processLine_year (p : CnkiPaper) (l : String) :
    (processLine p l).year =
      match dateValue? l with
      | some v => (findYear v).getD p.year
      | none => p.year := by
  unfold processLine dateValue?
  cases h : markerSplit l with
  | none => rfl
  | some mv =>
    obtain ⟨m, v⟩ := mv
    by_cases hm : m = 'D'
    · subst hm
      simp [(dispatch_fields p 'D' v).2.2.2]
    · simp [(dispatch_fields p m v).2.2.2, hm]

/-! ## Fold-level behaviour of `_parse_record` -/

theorem foldl_processLine_field {α : Type} (field : CnkiPaper → α)
    (ext : String → Option String) (upd : α → String → α)
    (hstep : ∀ p l, field (processLine p l) =
      match ext l with
      | some v => upd (field p) v
      | none => field p)
    (lines : List String) (p : CnkiPaper) :
    field (lines.foldl processLine p) = (lines.filterMap ext).foldl upd (field p) := by
  induction lines generalizing p with
  | nil => rfl
  | cons l ls ih =>
    rw [List.foldl_cons, ih, List.filterMap_cons]
    cases h : ext l with
    | none => rw [hstep p l, h]
    | some v => rw [List.foldl_cons, hstep p l, h]

theorem foldl_const_eq_getLast {α : Type} (f : String → α) (vs : List String)
    (init : α) :
    vs.foldl (fun _ v => f v) init =
      match vs.getLast? with
      | some v => f v
      | none => init := by
  induction vs generalizing init with
  | nil => rfl
  | cons v vs ih =>
    rw [List.foldl_cons, ih]
    cases vs with
    | nil => rfl
    | cons w ws =>
      rw [List.getLast?_cons_cons]
      cases h : (w :: ws).getLast? with
      | none => simp [List.getLast?_eq_none_iff] at h
      | some x => rfl

theorem parse_record_title (record : String) :
    (parse_record record).title =
      match (titleLineValues record).getLast? with
      | some v => v
      | none => "" := by
  unfold parse_record titleLineValues blockLines
  rw [foldl_processLine_field (fun p => p.title) titleValue? (fun _ v => v)
    processLine_title]
  exact foldl_const_eq_getLast id _ ""

theorem parse_record_insts (record : String) :
    (parse_record record).all_institutions =
      (match (instLineValues record).getLast? with
       | some v => splitInsts v
       | none => []) ∧
    (parse_record record).institution =
      (match (instLineValues record).getLast? with
       | some v => (splitInsts v).headD ""
       | none => "") := by
  unfold parse_record instLineValues blockLines
  constructor
  · rw [foldl_processLine_field (fun p => p.all_institutions) instValue?
      (fun _ v => splitInsts v) (fun p l => (processLine_insts p l).1)]
    exact foldl_const_eq_getLast splitInsts _ []
  · rw [foldl_processLine_field (fun p => p.institution) instValue?
      (fun _ v => (splitInsts v).headD "") (fun p l => (processLine_insts p l).2)]
    exact foldl_const_eq_getLast (fun v => (splitInsts v).headD "") _ ""

theorem parse_record_year (record : String) :
    (parse_record record).year =
      (dateLineValues record).foldl (fun y v => (findYear v).getD y) 0 := by
  unfold parse_record dateLineValues blockLines
  exact foldl_processLine_field (fun p => p.year) dateValue?
    (fun y v => (findYear v).getD y) processLine_year _ _

/-! ## The parse pipeline -/

theorem parseContent_foldl (blocks : List String) (acc : List CnkiPaper) :
    blocks.foldl
      (fun acc r =>
        let r := strTrim r
        if r = "" ∨ r.length < 50 then acc
        else
          let paper := parse_record r
          if paper.title = "" then acc else acc ++ [paper])
      acc =
    acc ++
      (((blocks.map strTrim).filter
          (fun r => decide (50 ≤ r.length) && decide ((parse_record r).title ≠ ""))).map
        parse_record) := by
  induction blocks generalizing acc with
  | nil => simp
  | cons b bs ih =>
    rw [List.foldl_cons, List.map_cons, List.filter_cons]
    by_cases hlen : 50 ≤ (strTrim b).length
    · have hne : ¬ (strTrim b = "" ∨ (strTrim b).length < 50) := by
        rintro (h | h)
        · rw [h] at hlen
          simp at hlen
        · omega
      by_cases ht : (parse_record (strTrim b)).title = ""
      · simp only [hne, if_neg, not_false_iff, ht, if_pos]
        rw [ih]
        simp [hlen, ht]
      · simp only [hne, if_neg, not_false_iff, ht, if_pos]
        rw [ih]
        have hg : (decide (50 ≤ (strTrim b).length) &&
            decide ((parse_record (strTrim b)).title ≠ "")) = true := by
          simp [hlen, ht]
        rw [if_pos hg]
        simp [List.append_assoc]
    · have hyes : strTrim b = "" ∨ (strTrim b).length < 50 := Or.inr (by omega)
      simp only [hyes, if_pos]
      rw [ih]
      simp [hlen]

theorem parseContent_eq (content : String) :
    parseContent content =
      (((splitRecords content).map strTrim).filter
          (fun r => decide (50 ≤ r.length) && decide ((parse_record r).title ≠ ""))).map
        parse_record := by
  unfold parseContent
  rw [parseContent_foldl]
  simp

/-! ## Leftmost-match characterisation of the year search -/

theorem findYearAux_some_iff (cs : List Char) (y : Nat) :
    findYearAux cs = some y ↔
      ∃ i, matchYearAt cs i = some y ∧ ∀ j < i, matchYearAt cs j = none := by
  induction cs with
  | nil =>
    simp only [findYearAux]
    constructor
    · intro h
      exact absurd h (by simp)
    · rintro ⟨i, hi, -⟩
      simp [matchYearAt, matchYear4] at hi
  | cons c cs ih =>
    cases h : matchYear4 (c :: cs) with
    | some y0 =>
      simp only [findYearAux, h]
      constructor
      · intro hy
        refine ⟨0, ?_, by omega⟩
        simp only [matchYearAt, List.drop_zero, h]
        exact hy
      · rintro ⟨i, hi, hmin⟩
        cases i with
        | zero =>
          simp only [matchYearAt, List.drop_zero, h] at hi
          exact hi
        | succ i =>
          have h0 := hmin 0 (by omega)
          simp only [matchYearAt, List.drop_zero, h] at h0
          exact absurd h0 (by simp)
    | none =>
      simp only [findYearAux, h]
      rw [ih]
      constructor
      · rintro ⟨i, hi, hmin⟩
        refine ⟨i + 1, ?_, ?_⟩
        · simpa [matchYearAt] using hi
        · intro j hj
          cases j with
          | zero => simpa [matchYearAt] using h
          | succ j => simpa [matchYearAt] using hmin j (by omega)
      · rintro ⟨i, hi, hmin⟩
        cases i with
        | zero =>
          simp only [matchYearAt, List.drop_zero, h] at hi
          exact absurd hi (by simp)
        | succ i =>
          refine ⟨i, ?_, ?_⟩
          · simpa [matchYearAt] using hi
          · intro j hj
            have := hmin (j + 1) (by omega)
            simpa [matchYearAt] using this

/-! ## Counting generated pairs -/

theorem count_eq_countP_str (b : String) (l : List String) :
    l.count b = l.countP (fun y => y == b) := rfl

theorem pairEq_sortPair (x y : String) (q : String × String) :
    pairEq (sortPair x y) q = pairEq (x, y) q := by
  unfold sortPair
  split
  · rfl
  · cases h1 : (y == q.1) <;> cases h2 : (x == q.2) <;>
      cases h3 : (y == q.2) <;> cases h4 : (x == q.1) <;>
      simp [pairEq, h1, h2, h3, h4]

theorem countP_pairEq_map_pair (x a b : String) (hab : a ≠ b) (rest : List String) :
    (rest.map (fun y => (x, y))).countP (fun q => pairEq q (a, b)) =
      (if x = a then rest.count b else 0) + (if x = b then rest.count a else 0) := by
  rw [List.countP_map]
  by_cases hx : x = a
  · subst hx
    rw [if_pos rfl, if_neg hab, count_eq_countP_str]
    have hc : List.countP ((fun q => pairEq q (x, b)) ∘ (fun y => (x, y))) rest =
        List.countP (fun y => y == b) rest :=
      List.countP_congr (fun y _ => by simp [pairEq, Function.comp, hab])
    omega
  · by_cases hxb : x = b
    · subst hxb
      rw [if_neg hx, if_pos rfl, count_eq_countP_str]
      have hc : List.countP ((fun q => pairEq q (a, x)) ∘ (fun y => (x, y))) rest =
          List.countP (fun y => y == a) rest :=
        List.countP_congr (fun y _ => by simp [pairEq, Function.comp, hx, Ne.symm hab])
      omega
    · rw [if_neg hx, if_neg hxb]
      have hc : List.countP ((fun q => pairEq q (a, b)) ∘ (fun y => (x, y))) rest = 0 :=
        List.countP_eq_zero.mpr (fun y _ => by simp [pairEq, Function.comp, hx, hxb])
      omega

theorem countP_recordPairs (a b : String) (hab : a ≠ b) (l : List String) :
    (recordPairs l).countP (fun q => pairEq q (a, b)) = pairOcc a b l := by
  induction l with
  | nil => rfl
  | cons x rest ih =>
    rw [recordPairs, List.countP_append, countP_pairEq_map_pair x a b hab rest, ih,
      pairOcc]

theorem countP_kwpair_chunk (x a b : String) (hab : a ≠ b) (rest : List String) :
    (rest.filterMap (fun y => if x ≠ y then some (sortPair x y) else none)).countP
        (fun q => pairEq q (a, b)) =
      (if x = a then rest.count b else 0) + (if x = b then rest.count a else 0) := by
  induction rest with
  | nil => simp
  | cons y ys ih =>
    rw [List.filterMap_cons]
    by_cases hxy : x ≠ y
    · rw [if_pos hxy]
      rw [List.countP_cons, ih, pairEq_sortPair, List.count_cons, List.count_cons]
      by_cases hxa : x = a
      · subst hxa
        have hxb : x ≠ b := hab
        by_cases hyb : y = b
        · subst hyb
          simp [pairEq, hab, Ne.symm hxy]
        · simp only [pairEq]
          have h1 : (y == b) = false := by simp [hyb]
          have h2 : (x == b) = false := by simp [hxb]
          simp [hxb, hyb, h1, h2, hab]
      · by_cases hxb : x = b
        · subst hxb
          by_cases hya : y = a
          · subst hya
            simp [pairEq, hab, hxa, Ne.symm hab]
          · have h1 : (y == a) = false := by simp [hya]
            simp [pairEq, hxa, hya, h1, Ne.symm hab]
        · have h1 : pairEq (x, y) (a, b) = false := by
            simp [pairEq, hxa, hxb]
          simp [h1, hxa, hxb]
    · push_neg at hxy
      subst hxy
      rw [if_neg (by simp)]
      rw [ih, List.count_cons, List.count_cons]
      by_cases hxa : x = a
      · subst hxa
        have h1 : (x == b) = false := by simp [hab]
        simp [h1, hab]
      · by_cases hxb : x = b
        · subst hxb
          have h1 : (x == a) = false := by simp [Ne.symm hab, hxa]
          simp [h1, hxa]
        · simp [hxa, hxb]

theorem countP_kwRecordPairs (a b : String) (hab : a ≠ b) (l : List String) :
    (kwRecordPairs l).countP (fun q => pairEq q (a, b)) = pairOcc a b l := by
  induction l with
  | nil => rfl
  | cons x rest ih =>
    rw [kwRecordPairs, List.countP_append, countP_kwpair_chunk x a b hab rest, ih,
      pairOcc]

/-! ## `pairOcc` under filtering and on duplicate-free lists -/

theorem pairOcc_filter_le (a b : String) (v : String → Bool) (l : List String) :
    pairOcc a b (l.filter v) ≤ pairOcc a b l := by
  induction l with
  | nil => simp [pairOcc]
  | cons x rest ih =>
    rw [List.filter_cons]
    have hcb : (rest.filter v).count b ≤ rest.count b :=
      (List.filter_sublist rest).count_le b
    have hca : (rest.filter v).count a ≤ rest.count a :=
      (List.filter_sublist rest).count_le a
    have hrec := ih
    by_cases hx : v x = true
    · rw [if_pos hx, pairOcc, pairOcc]
      split_ifs <;> omega
    · rw [if_neg hx, pairOcc]
      split_ifs <;> omega

theorem pairOcc_filter_eq (a b : String) (v : String → Bool) (l : List String)
    (hva : v a = true) (hvb : v b = true) :
    pairOcc a b (l.filter v) = pairOcc a b l := by
  induction l with
  | nil => simp
  | cons x rest ih =>
    rw [List.filter_cons]
    by_cases hx : v x = true
    · rw [if_pos hx, pairOcc, pairOcc, ih, List.count_filter hvb, List.count_filter hva]
    · have hxa : x ≠ a := fun h => hx (h ▸ hva)
      have hxb : x ≠ b := fun h => hx (h ▸ hvb)
      rw [if_neg hx, pairOcc, ih, if_neg hxa, if_neg hxb]
      omega

theorem pairOcc_zero_left (a b : String) (l : List String) (h : a ∉ l) :
    pairOcc a b l = 0 := by
  induction l with
  | nil => rfl
  | cons x rest ih =>
    have hxa : x ≠ a := fun he => h (he ▸ List.mem_cons_self x rest)
    have har : a ∉ rest := fun he => h (List.mem_cons_of_mem x he)
    rw [pairOcc, ih har, if_neg hxa, List.count_eq_zero_of_not_mem har]
    simp

theorem pairOcc_zero_right (a b : String) (l : List String) (h : b ∉ l) :
    pairOcc a b l = 0 := by
  induction l with
  | nil => rfl
  | cons x rest ih =>
    have hxb : x ≠ b := fun he => h (he ▸ List.mem_cons_self x rest)
    have hbr : b ∉ rest := fun he => h (List.mem_cons_of_mem x he)
    rw [pairOcc, ih hbr, if_neg hxb, List.count_eq_zero_of_not_mem hbr]
    simp

theorem pairOcc_nodup (a b : String) (hab : a ≠ b) (l : List String)
    (hnd : l.Nodup) :
    pairOcc a b l = if a ∈ l ∧ b ∈ l then 1 else 0 := by
  induction l with
  | nil => simp [pairOcc]
  | cons x rest ih =>
    rcases List.nodup_cons.mp hnd with ⟨hx, hrest⟩
    rw [pairOcc, ih hrest]
    by_cases h1 : x = a
    · subst h1
      rw [if_pos rfl, if_neg hab]
      have hf : ¬ (x ∈ rest ∧ b ∈ rest) := fun h => hx h.1
      rw [if_neg hf]
      by_cases hb : b ∈ rest
      · rw [List.count_eq_one_of_mem hrest hb,
          if_pos ⟨List.mem_cons_self x rest, List.mem_cons_of_mem x hb⟩]
      · rw [List.count_eq_zero_of_not_mem hb]
        have hnb : ¬ (x ∈ x :: rest ∧ b ∈ x :: rest) := by
          rintro ⟨-, hb2⟩
          rcases List.mem_cons.mp hb2 with h | h
          · exact hab h.symm
          · exact hb h
        rw [if_neg hnb]
    · by_cases h2 : x = b
      · subst h2
        rw [if_neg h1, if_pos rfl]
        have hf : ¬ (a ∈ rest ∧ x ∈ rest) := fun h => hx h.2
        rw [if_neg hf]
        by_cases ha : a ∈ rest
        · rw [List.count_eq_one_of_mem hrest ha,
            if_pos ⟨List.mem_cons_of_mem x ha, List.mem_cons_self x rest⟩]
        · rw [List.count_eq_zero_of_not_mem ha]
          have hna : ¬ (a ∈ x :: rest ∧ x ∈ x :: rest) := by
            rintro ⟨ha2, -⟩
            rcases List.mem_cons.mp ha2 with h | h
            · exact h1 h.symm
            · exact ha h
          rw [if_neg hna]
      · rw [if_neg h1, if_neg h2]
        have hma : a ∈ x :: rest ↔ a ∈ rest := by
          simp [List.mem_cons, Ne.symm h1]
        have hmb : b ∈ x :: rest ↔ b ∈ rest := by
          simp [List.mem_cons, Ne.symm h2]
        simp [hma, hmb]

theorem sum_map_ite_eq_countP {α : Type} (f : α → Bool) (l : List α) :
    (l.map (fun p => if f p then 1 else 0)).sum = l.countP f := by
  induction l with
  | nil => rfl
  | cons x rest ih =>
    rw [List.map_cons, List.sum_cons, ih, List.countP_cons]
    by_cases h : f x = true <;> simp [h] <;> omega

/-! ## Shape of the built graphs -/

theorem addPairs_edges (G : Graph) (ps : List (String × String)) :
    (G.addPairs ps).edges = ps.foldl (bumpAssoc pairEq) G.edges := by
  induction ps generalizing G with
  | nil => rfl
  | cons q ps ih =>
    rw [Graph.addPairs, List.foldl_cons, List.foldl_cons, ← Graph.addPairs]
    exact ih (G.addEdgeInc q)

theorem addPairs_append (G : Graph) (l1 l2 : List (String × String)) :
    G.addPairs (l1 ++ l2) = (G.addPairs l1).addPairs l2 := by
  unfold Graph.addPairs
  exact List.foldl_append _ _ l1 l2

theorem foldl_addPairs_flat (f : CnkiPaper → List (String × String))
    (papers : List CnkiPaper) (G : Graph) :
    papers.foldl (fun G p => G.addPairs (f p)) G = G.addPairs (papers.flatMap f) := by
  induction papers generalizing G with
  | nil => rfl
  | cons p ps ih =>
    rw [List.foldl_cons, List.flatMap_cons, addPairs_append, ih]


theorem recordPairs_short (l : List String) (h : l.length < 2) :
    recordPairs l = [] := by
  match l, h with
  | [], _ => rfl
  | [x], _ => rfl

theorem build_coauthorship_eq (papers : List CnkiPaper) (top_n : Nat) :
    build_coauthorship papers top_n = Graph.empty.addPairs (coauthPairs papers top_n) := by
  unfold build_coauthorship coauthPairs
  exact foldl_addPairs_flat _ papers Graph.empty

theorem build_institution_eq (papers : List CnkiPaper) :
    build_institution papers = Graph.empty.addPairs (instPairs papers) := by
  unfold build_institution instPairs
  have hstep : ∀ (G : Graph) (p : CnkiPaper),
      (if p.all_institutions.length < 2 then G
       else G.addPairs (recordPairs p.all_institutions)) =
      G.addPairs (recordPairs p.all_institutions) := by
    intro G p
    split
    · rw [recordPairs_short _ (by omega)]
      rfl
    · rfl
  have hfun : (fun (G : Graph) (p : CnkiPaper) =>
      if p.all_institutions.length < 2 then G
      else G.addPairs (recordPairs p.all_institutions)) =
      (fun (G : Graph) (p : CnkiPaper) => G.addPairs (recordPairs p.all_institutions)) := by
    funext G p
    exact hstep G p
  rw [hfun]
  exact foldl_addPairs_flat _ papers Graph.empty

theorem kwCounter_eq (papers : List CnkiPaper) (min_freq : Nat) :
    kwCounter papers min_freq =
      (kwPairs papers min_freq).foldl (bumpAssoc (fun p q => p == q)) [] := rfl

/-! ## Weights of the built graphs -/

theorem weight?_addPairs_empty (ps : List (String × String)) (q : String × String) :
    (Graph.empty.addPairs ps).weight? q =
      combineOpt none (ps.countP (fun r => pairEq r q)) := by
  unfold Graph.weight?
  rw [addPairs_edges]
  exact lookupAssoc_foldl_bump pairEq_symm pairEq_trans ps [] q

theorem mem_nodes_iff (G : Graph) (n : String) :
    n ∈ G.nodes ↔ ∃ e ∈ G.edges, n = e.1.1 ∨ n = e.1.2 := by
  unfold Graph.nodes
  rw [List.mem_dedup, List.mem_append]
  constructor
  · rintro (h | h) <;> obtain ⟨e, he, hn⟩ := List.mem_map.mp h
    · exact ⟨e, he, Or.inl hn.symm⟩
    · exact ⟨e, he, Or.inr hn.symm⟩
  · rintro ⟨e, he, hn | hn⟩
    · exact Or.inl (List.mem_map.mpr ⟨e, he, hn.symm⟩)
    · exact Or.inr (List.mem_map.mpr ⟨e, he, hn.symm⟩)

theorem mem_nodes_addPairs_empty (ps : List (String × String)) (n : String) :
    n ∈ (Graph.empty.addPairs ps).nodes ↔ ∃ q ∈ ps, n = q.1 ∨ n = q.2 := by
  rw [mem_nodes_iff]
  constructor
  · rintro ⟨e, he, hn⟩
    rw [addPairs_edges] at he
    rcases foldl_bump_key_mem ps Graph.empty.edges e he with h | h
    · simp [Graph.empty] at h
    · exact ⟨e.1, h, hn⟩
  · rintro ⟨q, hq, hn⟩
    have hcount : 0 < ps.countP (fun r => pairEq r q) := by
      rw [List.countP_pos_iff]
      exact ⟨q, hq, pairEq_refl q⟩
    have hw := weight?_addPairs_empty ps q
    have hsome : ∃ w, (Graph.empty.addPairs ps).weight? q = some w := by
      rw [hw]
      cases hc : ps.countP (fun r => pairEq r q) with
      | zero => omega
      | succ m => exact ⟨m + 1, by simp [combineOpt]⟩
    obtain ⟨w, hww⟩ := hsome
    obtain ⟨e, he, heq, -⟩ := lookupAssoc_some_mem _ _ _ hww
    refine ⟨e, he, ?_⟩
    rcases (pairEq_iff e.1 q).mp heq with ⟨h1, h2⟩ | ⟨h1, h2⟩ <;>
      rcases hn with hn | hn
    · exact Or.inl (by rw [hn, ← h1])
    · exact Or.inr (by rw [hn, ← h2])
    · exact Or.inr (by rw [hn, ← h2])
    · exact Or.inl (by rw [hn, ← h1])

/-! ## Endpoints and self-pairs of generated pair lists -/

theorem recordPairs_endpoint_iff (l : List String) (n : String) :
    (∃ q ∈ recordPairs l, n = q.1 ∨ n = q.2) ↔ (n ∈ l ∧ 2 ≤ l.length) := by
  induction l with
  | nil => simp [recordPairs]
  | cons x rest ih =>
    rw [recordPairs]
    constructor
    · rintro ⟨q, hq, hn⟩
      rcases List.mem_append.mp hq with h | h
      · obtain ⟨y, hy, hqe⟩ := List.mem_map.mp h
        have hlen : 0 < rest.length := List.length_pos.mpr (List.ne_nil_of_mem hy)
        rcases hn with hn | hn
        · rw [← hqe] at hn
          refine ⟨?_, by simp; omega⟩
          rw [hn]
          exact List.mem_cons_self x rest
        · rw [← hqe] at hn
          refine ⟨?_, by simp; omega⟩
          rw [hn]
          exact List.mem_cons_of_mem x hy
      · obtain ⟨hmem, hlen⟩ := ih.mp ⟨q, h, hn⟩
        exact ⟨List.mem_cons_of_mem x hmem, by simp; omega⟩
    · rintro ⟨hmem, hlen⟩
      have hrest : 0 < rest.length := by simp at hlen; omega
      rcases List.mem_cons.mp hmem with h | h
      · obtain ⟨y0, hy0⟩ := List.exists_mem_of_length_pos hrest
        refine ⟨(x, y0), List.mem_append.mpr (Or.inl ?_), Or.inl h⟩
        exact List.mem_map.mpr ⟨y0, hy0, rfl⟩
      · refine ⟨(x, n), List.mem_append.mpr (Or.inl ?_), Or.inr rfl⟩
        exact List.mem_map.mpr ⟨n, h, rfl⟩

theorem recordPairs_ne_of_nodup (l : List String) (hnd : l.Nodup) :
    ∀ q ∈ recordPairs l, q.1 ≠ q.2 := by
  induction l with
  | nil => simp [recordPairs]
  | cons x rest ih =>
    rcases List.nodup_cons.mp hnd with ⟨hx, hrest⟩
    intro q hq
    rcases List.mem_append.mp hq with h | h
    · obtain ⟨y, hy, hqe⟩ := List.mem_map.mp h
      rw [← hqe]
      intro he
      simp at he
      rw [he] at hx
      exact hx hy
    · exact ih hrest q h

/-! ## Canonical sorted pairs -/

theorem sortPair_symm (a b : String) : sortPair a b = sortPair b a := by
  unfold sortPair
  by_cases h1 : a ≤ b
  · by_cases h2 : b ≤ a
    · have : a = b := le_antisymm h1 h2
      rw [this]
    · rw [if_pos h1, if_neg h2]
  · have h2 : b ≤ a := le_of_not_le h1
    rw [if_neg h1, if_pos h2]

theorem sortPair_fst_ne_snd (a b : String) (hab : a ≠ b) :
    (sortPair a b).1 ≠ (sortPair a b).2 := by
  unfold sortPair
  split
  · exact hab
  · exact Ne.symm hab

theorem sortPair_canon (a b : String) :
    sortPair (sortPair a b).1 (sortPair a b).2 = sortPair a b := by
  unfold sortPair
  by_cases h1 : a ≤ b
  · simp [h1]
  · have h2 : b ≤ a := le_of_not_le h1
    simp [h1, h2]

theorem kwRecordPairs_canonical (l : List String) :
    ∀ q ∈ kwRecordPairs l, q.1 ≠ q.2 ∧ sortPair q.1 q.2 = q := by
  induction l with
  | nil => simp [kwRecordPairs]
  | cons x rest ih =>
    intro q hq
    rcases List.mem_append.mp hq with h | h
    · obtain ⟨y, hy, hqe⟩ := List.mem_filterMap.mp h
      by_cases hxy : x ≠ y
      · rw [if_pos hxy] at hqe
        have hqe2 : sortPair x y = q := by
          injection hqe
        rw [← hqe2]
        exact ⟨sortPair_fst_ne_snd x y hxy, sortPair_canon x y⟩
      · rw [if_neg hxy] at hqe
        exact absurd hqe (by simp)
    · exact ih q h

theorem pairEq_canon (k : String × String) (hk1 : k.1 ≠ k.2)
    (hk2 : sortPair k.1 k.2 = k) (a b : String) :
    pairEq k (a, b) = (k == sortPair a b) := by
  by_cases hp : pairEq k (a, b) = true
  · rw [hp]
    rcases (pairEq_iff k (a, b)).mp hp with ⟨h1, h2⟩ | ⟨h1, h2⟩
    · have h1' : k.1 = a := h1
      have h2' : k.2 = b := h2
      have : sortPair a b = k := by
        rw [← h1', ← h2']
        exact hk2
      simp [this]
    · have h1' : k.1 = b := h1
      have h2' : k.2 = a := h2
      have : sortPair a b = k := by
        rw [sortPair_symm, ← h1', ← h2']
        exact hk2
      simp [this]
  · have hp2 : pairEq k (a, b) = false := by
      cases h3 : pairEq k (a, b)
      · rfl
      · exact absurd h3 hp
    rw [hp2]
    by_cases hb : (k == sortPair a b) = true
    · exfalso
      have hkk : k = sortPair a b := by
        simpa using hb
      apply hp
      rw [hkk]
      unfold sortPair
      split
      · exact pairEq_refl (a, b)
      · exact (pairEq_iff (b, a) (a, b)).mpr (Or.inr ⟨rfl, rfl⟩)
    · cases h3 : (k == sortPair a b)
      · rfl
      · exact absurd h3 hb

theorem canon_pairEq_inj (p q : String × String)
    (hp : p.1 ≠ p.2 ∧ sortPair p.1 p.2 = p)
    (hq : q.1 ≠ q.2 ∧ sortPair q.1 q.2 = q)
    (h : pairEq p q = true) : p = q := by
  rcases (pairEq_iff p q).mp h with ⟨h1, h2⟩ | ⟨h1, h2⟩
  · obtain ⟨hp1, hp2⟩ := p
    obtain ⟨hq1, hq2⟩ := q
    simp_all
  · have : p = (q.2, q.1) := by
      obtain ⟨p1, p2⟩ := p
      simp_all
    rw [this] at hp ⊢
    have h3 : sortPair q.2 q.1 = (q.2, q.1) := hp.2
    have h4 : sortPair q.1 q.2 = q := hq.2
    rw [sortPair_symm] at h3
    rw [h4] at h3
    exact h3.symm

/-! ## The keyword counter and graph -/

theorem lookupAssoc_eq_find? {κ : Type} (eqk : κ → κ → Bool)
    (c : List (κ × Nat)) (k : κ) :
    lookupAssoc eqk c k = (c.find? (fun e => eqk e.1 k)).map (fun e => e.2) := by
  induction c with
  | nil => rfl
  | cons e es ih =>
    rw [lookupAssoc, List.find?_cons]
    cases h : eqk e.1 k <;> simp [h, ih]

theorem kwCounter_canonical (papers : List CnkiPaper) (min_freq : Nat) :
    ∀ e ∈ kwCounter papers min_freq, e.1.1 ≠ e.1.2 ∧ sortPair e.1.1 e.1.2 = e.1 := by
  intro e he
  rw [kwCounter_eq] at he
  rcases foldl_bump_key_mem (kwPairs papers min_freq) [] e he with h | h
  · simp at h
  · obtain ⟨p, -, hq⟩ := List.mem_flatMap.mp h
    exact kwRecordPairs_canonical _ _ hq

theorem kwCounter_keysDistinct (papers : List CnkiPaper) (min_freq : Nat) :
    KeysDistinct pairEq (kwCounter papers min_freq) := by
  have hbeq : KeysDistinct (fun p q : (String × String) => p == q)
      (kwCounter papers min_freq) := by
    rw [kwCounter_eq]
    exact keysDistinct_foldl_bump _ [] (by simp [KeysDistinct])
  have hcanon := kwCounter_canonical papers min_freq
  refine hbeq.imp_of_mem ?_
  intro e1 e2 h1 h2 hne
  cases h3 : pairEq e1.1 e2.1
  · rfl
  · exfalso
    have : e1.1 = e2.1 :=
      canon_pairEq_inj e1.1 e2.1 (hcanon e1 h1) (hcanon e2 h2) h3
    rw [this] at hne
    simp at hne

theorem kwCounter_lookup (papers : List CnkiPaper) (min_freq : Nat)
    (a b : String) :
    lookupAssoc pairEq (kwCounter papers min_freq) (a, b) =
      combineOpt none
        ((kwPairs papers min_freq).countP (fun r => pairEq r (a, b))) := by
  have hcanon := kwCounter_canonical papers min_freq
  rw [lookupAssoc_congr (kwCounter papers min_freq) (a, b) (sortPair a b)
    (fun e he => pairEq_canon e.1 (hcanon e he).1 (hcanon e he).2 a b)]
  rw [kwCounter_eq,
    lookupAssoc_foldl_bump beq_symm_pair beq_trans_pair (kwPairs papers min_freq) []
      (sortPair a b)]
  have : (kwPairs papers min_freq).countP (fun q => q == sortPair a b) =
      (kwPairs papers min_freq).countP (fun r => pairEq r (a, b)) := by
    refine List.countP_congr ?_
    intro q hq
    obtain ⟨p, -, hq2⟩ := List.mem_flatMap.mp hq
    have hc := kwRecordPairs_canonical _ _ hq2
    rw [pairEq_canon q hc.1 hc.2 a b]
  rw [this]
  rfl

theorem build_keywords_weight (papers : List CnkiPaper) (min_freq : Nat)
    (a b : String) :
    (build_keywords papers min_freq).weight? (a, b) =
      match lookupAssoc pairEq (kwCounter papers min_freq) (a, b) with
      | some w => if 2 ≤ w then some w else none
      | none => none := by
  show lookupAssoc pairEq ((kwCounter papers min_freq).filter (fun e => 2 ≤ e.2)) (a, b) = _
  rw [lookupAssoc_filter pairEq_symm pairEq_trans _ _ _
    (kwCounter_keysDistinct papers min_freq)]
  rw [lookupAssoc_eq_find?]
  cases h : (kwCounter papers min_freq).find? (fun e => pairEq e.1 (a, b)) with
  | none => rfl
  | some e => simp

/-! ## Co-occurrence counts of the three builders -/


theorem sum_map_ite_prop {α : Type} (P : α → Prop) [DecidablePred P] (l : List α) :
    (l.map (fun p => if P p then 1 else 0)).sum = l.countP (fun p => decide (P p)) := by
  induction l with
  | nil => rfl
  | cons x rest ih =>
    rw [List.map_cons, List.sum_cons, ih, List.countP_cons]
    by_cases h : P x <;> simp [h] <;> omega

theorem countP_coauthPairs_nodup (papers : List CnkiPaper) (top_n : Nat)
    (a b : String) (hab : a ≠ b) (hnd : ∀ p ∈ papers, p.authors.Nodup) :
    (coauthPairs papers top_n).countP (fun r => pairEq r (a, b)) =
      coauthCooccurCount papers top_n a b := by
  unfold coauthPairs coauthCooccurCount
  rw [List.countP_flatMap]
  have h1 : ∀ p ∈ papers,
      (List.countP (fun r => pairEq r (a, b)) ∘
        (fun p => recordPairs (restrictAuthors papers top_n p))) p =
      (if a ∈ restrictAuthors papers top_n p ∧ b ∈ restrictAuthors papers top_n p
       then 1 else 0) := by
    intro p hp
    show List.countP _ (recordPairs (restrictAuthors papers top_n p)) = _
    rw [countP_recordPairs a b hab]
    have hnodup : (restrictAuthors papers top_n p).Nodup := by
      unfold restrictAuthors
      exact List.Nodup.filter _ (hnd p hp)
    exact pairOcc_nodup a b hab _ hnodup
  rw [List.map_congr_left h1, sum_map_ite_prop]

theorem countP_instPairs_nodup (papers : List CnkiPaper)
    (a b : String) (hab : a ≠ b) (hnd : ∀ p ∈ papers, p.all_institutions.Nodup) :
    (instPairs papers).countP (fun r => pairEq r (a, b)) =
      instCooccurCount papers a b := by
  unfold instPairs instCooccurCount
  rw [List.countP_flatMap]
  have h1 : ∀ p ∈ papers,
      (List.countP (fun r => pairEq r (a, b)) ∘
        (fun p => recordPairs p.all_institutions)) p =
      (if a ∈ p.all_institutions ∧ b ∈ p.all_institutions then 1 else 0) := by
    intro p hp
    show List.countP _ (recordPairs p.all_institutions) = _
    rw [countP_recordPairs a b hab, pairOcc_nodup a b hab _ (hnd p hp)]
  rw [List.map_congr_left h1, sum_map_ite_prop]

theorem countP_kwPairs_eq_sum (papers : List CnkiPaper) (min_freq : Nat)
    (a b : String) (hab : a ≠ b) :
    (kwPairs papers min_freq).countP (fun r => pairEq r (a, b)) =
      (papers.map (fun p => pairOcc a b (restrictKeywords papers min_freq p))).sum := by
  unfold kwPairs
  rw [List.countP_flatMap]
  refine congrArg List.sum (List.map_congr_left ?_)
  intro p _
  show List.countP _ (kwRecordPairs (restrictKeywords papers min_freq p)) = _
  rw [countP_kwRecordPairs a b hab]

theorem countP_kwPairs_nodup (papers : List CnkiPaper) (min_freq : Nat)
    (a b : String) (hab : a ≠ b) (hnd : ∀ p ∈ papers, p.keywords.Nodup) :
    (kwPairs papers min_freq).countP (fun r => pairEq r (a, b)) =
      kwCooccurCount papers min_freq a b := by
  rw [countP_kwPairs_eq_sum papers min_freq a b hab]
  unfold kwCooccurCount
  have h1 : ∀ p ∈ papers,
      pairOcc a b (restrictKeywords papers min_freq p) =
      (if a ∈ restrictKeywords papers min_freq p ∧
          b ∈ restrictKeywords papers min_freq p then 1 else 0) := by
    intro p hp
    have hnodup : (restrictKeywords papers min_freq p).Nodup := by
      unfold restrictKeywords
      exact List.Nodup.filter _ (hnd p hp)
    exact pairOcc_nodup a b hab _ hnodup
  rw [List.map_congr_left h1, sum_map_ite_prop]

theorem kwRestricted_le_raw (papers : List CnkiPaper) (min_freq : Nat)
    (a b : String) :
    (papers.map (fun p => pairOcc a b (restrictKeywords papers min_freq p))).sum ≤
      rawKwCooccur papers a b := by
  unfold rawKwCooccur
  refine List.sum_le_sum ?_
  intro p _
  exact pairOcc_filter_le a b _ p.keywords

theorem kwRestricted_eq_raw (papers : List CnkiPaper) (min_freq : Nat)
    (a b : String) (hva : validKw papers min_freq a = true)
    (hvb : validKw papers min_freq b = true) :
    (papers.map (fun p => pairOcc a b (restrictKeywords papers min_freq p))).sum =
      rawKwCooccur papers a b := by
  unfold rawKwCooccur
  refine congrArg List.sum (List.map_congr_left ?_)
  intro p _
  exact pairOcc_filter_eq a b _ p.keywords hva hvb

/-! ## The author groups of `build_coauthorship` -/


theorem groupOf_eq_lookupGroup (papers : List CnkiPaper) (a : String) :
    groupOf papers a = lookupGroup (authorGroups papers) a := rfl

theorem lookupGroup_addToGroup (gs : List (String × List CnkiPaper))
    (b : String) (p : CnkiPaper) (a : String) :
    lookupGroup (addToGroup gs b p) a =
      if a = b then lookupGroup gs a ++ [p] else lookupGroup gs a := by
  induction gs with
  | nil =>
    by_cases h : a = b
    · subst h
      simp [lookupGroup, addToGroup, List.find?]
    · have h2 : ¬ b = a := fun he => h he.symm
      simp [lookupGroup, addToGroup, List.find?, h, h2]
  | cons g gs ih =>
    by_cases h1 : g.1 = b
    · rw [addToGroup, if_pos h1]
      by_cases h2 : a = b
      · have h3 : g.1 = a := h1.trans h2.symm
        rw [if_pos h2]
        simp [lookupGroup, List.find?_cons, h3]
      · have h4 : g.1 ≠ a := fun he => h2 (he.symm.trans h1)
        rw [if_neg h2]
        simp [lookupGroup, List.find?_cons, h4]
    · rw [addToGroup, if_neg h1]
      by_cases h2 : g.1 = a
      · have h3 : ¬ a = b := fun he => h1 (h2.trans he)
        rw [if_neg h3]
        simp [lookupGroup, List.find?_cons, h2]
      · have hL : lookupGroup (g :: addToGroup gs b p) a =
            lookupGroup (addToGroup gs b p) a := by
          simp [lookupGroup, List.find?_cons, h2]
        have hR : lookupGroup (g :: gs) a = lookupGroup gs a := by
          simp [lookupGroup, List.find?_cons, h2]
        rw [hL, ih, hR]

theorem lookupGroup_authorsFold (authors : List String)
    (gs : List (String × List CnkiPaper)) (p : CnkiPaper) (a : String)
    (ha : a ≠ "") :
    lookupGroup
        (authors.foldl (fun gs x => if x ≠ "" then addToGroup gs x p else gs) gs)
        a =
      lookupGroup gs a ++ List.replicate (authors.count a) p := by
  induction authors generalizing gs with
  | nil => simp
  | cons x xs ih =>
    rw [List.foldl_cons, List.count_cons]
    by_cases hx : x ≠ ""
    · rw [if_pos hx, ih (addToGroup gs x p), lookupGroup_addToGroup]
      by_cases hax : a = x
      · rw [if_pos hax]
        have hxa : (x == a) = true := by simp [hax.symm]
        rw [hxa, List.append_assoc]
        simp [List.replicate_succ]
      · rw [if_neg hax]
        have hxa : (x == a) = false := by
          simp only [beq_eq_false_iff_ne, ne_eq]
          exact fun he => hax he.symm
        rw [hxa]
        simp
    · push_neg at hx
      subst hx
      have hxa : ("" == a) = false := by
        simp only [beq_eq_false_iff_ne, ne_eq]
        exact Ne.symm ha
      rw [if_neg (by simp), ih gs, hxa]
      simp

theorem lookupGroup_papersFold (papers : List CnkiPaper)
    (gs : List (String × List CnkiPaper)) (a : String) (ha : a ≠ "") :
    lookupGroup
        (papers.foldl
          (fun gs p =>
            p.authors.foldl (fun gs x => if x ≠ "" then addToGroup gs x p else gs) gs)
          gs)
        a =
      lookupGroup gs a ++
        papers.flatMap (fun p => List.replicate (p.authors.count a) p) := by
  induction papers generalizing gs with
  | nil => simp
  | cons p ps ih =>
    rw [List.foldl_cons, ih _, lookupGroup_authorsFold _ _ _ _ ha,
      List.flatMap_cons, List.append_assoc]

theorem groupOf_eq_flat (papers : List CnkiPaper) (a : String) (ha : a ≠ "") :
    groupOf papers a =
      papers.flatMap (fun p => List.replicate (p.authors.count a) p) := by
  rw [groupOf_eq_lookupGroup]
  unfold authorGroups
  rw [lookupGroup_papersFold papers [] a ha]
  rfl

theorem coauthPaperCount_eq (papers : List CnkiPaper) (a : String) (ha : a ≠ "") :
    coauthPaperCount papers a = (papers.map (fun p => p.authors.count a)).sum := by
  unfold coauthPaperCount
  rw [groupOf_eq_flat papers a ha, List.length_flatMap]
  refine congrArg List.sum (List.map_congr_left ?_)
  intro p _
  simp

theorem map_sum_flatMap {α β γ : Type} (g : β → γ) (f : α → List β)
    (l : List α) [AddCommMonoid γ] :
    (((l.flatMap f).map g).sum : γ) = (l.map (fun x => ((f x).map g).sum)).sum := by
  induction l with
  | nil => rfl
  | cons x xs ih =>
    rw [List.flatMap_cons, List.map_append, List.sum_append, ih, List.map_cons,
      List.sum_cons]

theorem coauthCitations_eq (papers : List CnkiPaper) (a : String) (ha : a ≠ "") :
    coauthCitations papers a =
      (papers.map (fun p => p.authors.count a * p.citations)).sum := by
  unfold coauthCitations
  rw [groupOf_eq_flat papers a ha, map_sum_flatMap]
  refine congrArg List.sum (List.map_congr_left ?_)
  intro p _
  rw [List.map_replicate, List.sum_replicate, smul_eq_mul]

/-! ## Keys of the author groups and the retained top set -/

theorem addToGroup_keys (gs : List (String × List CnkiPaper)) (a : String)
    (p : CnkiPaper) :
    ∀ g ∈ addToGroup gs a p, g.1 ∈ gs.map Prod.fst ∨ g.1 = a := by
  induction gs with
  | nil =>
    intro g hg
    simp [addToGroup] at hg
    right
    rw [hg]
  | cons g0 gs ih =>
    intro g hg
    rw [addToGroup] at hg
    by_cases h1 : g0.1 = a
    · rw [if_pos h1] at hg
      rcases List.mem_cons.mp hg with h | h
      · left
        rw [h]
        exact List.mem_map.mpr ⟨g0, List.mem_cons_self g0 gs, rfl⟩
      · left
        exact List.mem_map.mpr
          ⟨g, List.mem_cons_of_mem g0 h, rfl⟩
    · rw [if_neg h1] at hg
      rcases List.mem_cons.mp hg with h | h
      · left
        rw [h]
        exact List.mem_map.mpr ⟨g0, List.mem_cons_self g0 gs, rfl⟩
      · rcases ih g h with h2 | h2
        · left
          obtain ⟨x, hx, hx2⟩ := List.mem_map.mp h2
          exact List.mem_map.mpr ⟨x, List.mem_cons_of_mem g0 hx, hx2⟩
        · right
          exact h2

theorem authorsFold_keys (authors : List String)
    (gs : List (String × List CnkiPaper)) (p : CnkiPaper) :
    ∀ g ∈ authors.foldl (fun gs x => if x ≠ "" then addToGroup gs x p else gs) gs,
      g.1 ∈ gs.map Prod.fst ∨ g.1 ≠ "" := by
  induction authors generalizing gs with
  | nil =>
    intro g hg
    left
    exact List.mem_map.mpr ⟨g, hg, rfl⟩
  | cons x xs ih =>
    intro g hg
    rw [List.foldl_cons] at hg
    by_cases hx : x ≠ ""
    · rw [if_pos hx] at hg
      rcases ih (addToGroup gs x p) g hg with h | h
      · obtain ⟨g', hg', he⟩ := List.mem_map.mp h
        rcases addToGroup_keys gs x p g' hg' with h2 | h2
        · left
          rw [← he]
          exact h2
        · right
          rw [← he, h2]
          exact hx
      · right
        exact h
    · rw [if_neg hx] at hg
      exact ih gs g hg

theorem authorGroups_keys_ne (papers : List CnkiPaper) :
    ∀ g ∈ authorGroups papers, g.1 ≠ "" := by
  unfold authorGroups
  suffices h : ∀ (gs : List (String × List CnkiPaper)),
      (∀ g ∈ gs, g.1 ≠ "") →
      ∀ g ∈ papers.foldl
        (fun gs p =>
          p.authors.foldl (fun gs x => if x ≠ "" then addToGroup gs x p else gs) gs)
        gs, g.1 ≠ "" by
    exact h [] (by simp)
  induction papers with
  | nil =>
    intro gs hgs g hg
    exact hgs g hg
  | cons p ps ih =>
    intro gs hgs g hg
    rw [List.foldl_cons] at hg
    refine ih _ ?_ g hg
    intro g' hg'
    rcases authorsFold_keys p.authors gs p g' hg' with h | h
    · obtain ⟨g'', hg'', he⟩ := List.mem_map.mp h
      rw [← he]
      exact hgs g'' hg''
    · exact h

theorem topAuthorNames_sub_keys (papers : List CnkiPaper) (top_n : Nat) :
    ∀ n ∈ topAuthorNames papers top_n, n ∈ (authorGroups papers).map Prod.fst := by
  intro n hn
  unfold topAuthorNames at hn
  obtain ⟨g, hg, he⟩ := List.mem_map.mp hn
  have h1 : g ∈ List.insertionSort
      (fun x y => y.2.length ≤ x.2.length) (authorGroups papers) :=
    List.take_subset top_n _ hg
  have h2 : g ∈ authorGroups papers :=
    (List.perm_insertionSort _ _).mem_iff.mp h1
  exact List.mem_map.mpr ⟨g, h2, he⟩

theorem topAuthorNames_ne (papers : List CnkiPaper) (top_n : Nat) (n : String)
    (hn : n ∈ topAuthorNames papers top_n) : n ≠ "" := by
  obtain ⟨g, hg, he⟩ := List.mem_map.mp (topAuthorNames_sub_keys papers top_n n hn)
  rw [← he]
  exact authorGroups_keys_ne papers g hg

theorem recordPairs_mem_endpoints (l : List String) (q : String × String)
    (hq : q ∈ recordPairs l) : q.1 ∈ l ∧ q.2 ∈ l := by
  induction l with
  | nil => simp [recordPairs] at hq
  | cons x rest ih =>
    rw [recordPairs] at hq
    rcases List.mem_append.mp hq with h | h
    · obtain ⟨y, hy, he⟩ := List.mem_map.mp h
      rw [← he]
      exact ⟨List.mem_cons_self x rest, List.mem_cons_of_mem x hy⟩
    · obtain ⟨h1, h2⟩ := ih h
      exact ⟨List.mem_cons_of_mem x h1, List.mem_cons_of_mem x h2⟩

theorem mem_restrictAuthors (papers : List CnkiPaper) (top_n : Nat)
    (p : CnkiPaper) (a : String) :
    a ∈ restrictAuthors papers top_n p ↔
      a ∈ p.authors ∧ a ∈ topAuthorNames papers top_n := by
  unfold restrictAuthors
  rw [List.mem_filter]
  simp

theorem coauth_node_in_top (papers : List CnkiPaper) (top_n : Nat) (n : String)
    (hn : n ∈ (build_coauthorship papers top_n).nodes) :
    n ∈ topAuthorNames papers top_n := by
  rw [build_coauthorship_eq, mem_nodes_addPairs_empty] at hn
  obtain ⟨q, hq, he⟩ := hn
  obtain ⟨p, -, hq2⟩ := List.mem_flatMap.mp hq
  obtain ⟨h1, h2⟩ := recordPairs_mem_endpoints _ q hq2
  rcases he with he | he
  · rw [he]
    exact ((mem_restrictAuthors papers top_n p q.1).mp h1).2
  · rw [he]
    exact ((mem_restrictAuthors papers top_n p q.2).mp h2).2

/-! ## Corpus statistics -/

theorem statsOf_years_mem (papers : List CnkiPaper) (y : Nat) :
    y ∈ (statsOf papers).years ↔ 2000 < y ∧ ∃ p ∈ papers, p.year = y := by
  unfold statsOf
  rw [List.mem_insertionSort, List.mem_dedup, List.mem_filter]
  simp
  tauto

theorem statsOf_years_sorted (papers : List CnkiPaper) :
    (statsOf papers).years.Sorted (· ≤ ·) :=
  List.sorted_insertionSort _ _

theorem statsOf_years_nodup (papers : List CnkiPaper) :
    (statsOf papers).years.Nodup := by
  unfold statsOf
  exact (List.perm_insertionSort _ _).nodup_iff.mpr (List.nodup_dedup _)

theorem statsOf_append_low_year (papers : List CnkiPaper) (p : CnkiPaper)
    (h : p.year ≤ 2000) :
    (statsOf (papers ++ [p])).years = (statsOf papers).years := by
  unfold statsOf
  have hfilter : ((papers ++ [p]).map (fun p => p.year)).filter (fun y => 2000 < y) =
      (papers.map (fun p => p.year)).filter (fun y => 2000 < y) := by
    rw [List.map_append, List.filter_append]
    have : ([p].map (fun p => p.year)).filter (fun y => 2000 < y) = [] := by
      simp
      omega
    rw [this, List.append_nil]
  rw [hfilter]

/-! ## Skipped lines and the default record -/

theorem processLine_skip (p : CnkiPaper) (l : String)
    (h : markerSplit l = none) : processLine p l = p := by
  unfold processLine
  rw [h]

theorem foldl_processLine_skip (lines : List String) (p : CnkiPaper)
    (h : ∀ l ∈ lines, markerSplit l = none) :
    lines.foldl processLine p = p := by
  induction lines with
  | nil => rfl
  | cons l ls ih =>
    rw [List.foldl_cons, processLine_skip p l (h l (by simp))]
    exact ih (fun l' hl' => h l' (by simp [hl']))

/-! ## Small list helpers for node membership -/

theorem two_le_length_of_two_mem {l : List String} {m n : String}
    (hm : m ∈ l) (hn : n ∈ l) (hne : m ≠ n) : 2 ≤ l.length := by
  match l, hm, hn with
  | [x], hm, hn =>
    rw [List.mem_singleton.mp hm, List.mem_singleton.mp hn] at hne
    exact absurd rfl hne
  | x :: y :: rest, _, _ => simp
  | [], hm, _ => exact absurd hm (by simp)

theorem exists_other_mem_of_nodup {l : List String} {n : String}
    (hnd : l.Nodup) (hn : n ∈ l) (hlen : 2 ≤ l.length) :
    ∃ m ∈ l, m ≠ n := by
  match l, hnd, hn, hlen with
  | x :: y :: rest, hnd, hn, _ =>
    have hxy : x ≠ y := by
      rcases List.pairwise_cons.mp hnd with ⟨h1, -⟩
      exact h1 y (by simp)
    by_cases hx : n = x
    · exact ⟨y, by simp, fun he => hxy (hx ▸ he : y = x).symm⟩
    · exact ⟨x, by simp, fun he => hx he.symm⟩


/-! ## The claims -/

/-- C1: the parse operation returns exactly the in-order decodings of the
blocks that are at least 50 characters long after trimming and decode to a
non-empty title — so an input with `N` such well-formed blocks yields exactly
`N` records, field-for-field the decoding of the corresponding block, every
shorter block and every titleless decode being absent; and a block with
exactly one title-marker line of value `v` decodes with title `v`. -/
theorem C1_parse_well_formed (content : String) :
    parseContent content =
      ((((splitRecords content).map strTrim).filter
          (fun r => decide (50 ≤ r.length) && decide ((parse_record r).title ≠ ""))).map
        parse_record) ∧
    (∀ record v, titleLineValues record = [v] → (parse_record record).title = v) := by
  refine ⟨parseContent_eq content, ?_⟩
  intro record v hv
  rw [parse_record_title, hv]
  rfl

/-- Witness for C1 at a concrete one-title-line block. -/
theorem C1_witness :
    titleLineValues "%T 标题" = ["标题"] ∧ (parse_record "%T 标题").title = "标题" :=
  ⟨by decide, (C1_parse_well_formed "").2 "%T 标题" "标题" (by decide)⟩

/-- C6 counterexample: a block whose *last* institution-marker line has an
empty value; the decoded `all_institutions` comes from the earlier non-empty
line, not from the last marker line as the claim states. -/
theorem C6_counterexample :
    (instMarkerValues badInstBlock).length = 2 ∧
    (instMarkerValues badInstBlock).getLast? = some "" ∧
    splitInsts "" = [] ∧
    (parse_record badInstBlock).all_institutions = ["A大学", "B大学"] ∧
    (parse_record badInstBlock).institution = "A大学" ∧
    (["A大学", "B大学"] : List String) ≠ [] := by
  refine ⟨by decide, by decide, by decide, by decide, by decide, by decide⟩

/-- C6 (amended): `all_institutions` and the primary institution are derived
from the last institution-marker line *whose value is non-empty* (empty-valued
`%+` lines are ignored); the value is split on `;` into trimmed non-empty
segments, the primary institution being the first segment (empty if none). -/
theorem C6_last_inst_line (record : String) :
    (parse_record record).all_institutions =
      (match (instLineValues record).getLast? with
       | some v => splitInsts v
       | none => []) ∧
    (parse_record record).institution =
      (match (instLineValues record).getLast? with
       | some v => (splitInsts v).headD ""
       | none => "") :=
  parse_record_insts record

/-- C7: the decoded year folds over the date-marker lines, taking for each
the first substring matching the `(19|20)dd` pattern (leftmost-match
characterisation), so a single date line with value `v` gives year
`(findYear v).getD 0`; "2024年第5期" yields 2024 and a value with no match
leaves the year at 0. -/
theorem C7_year_extraction :
    (∀ record : String,
      (parse_record record).year =
        (dateLineValues record).foldl (fun y v => (findYear v).getD y) 0) ∧
    (∀ (v : String) (y : Nat), findYear v = some y ↔
      ∃ i, matchYearAt v.toList i = some y ∧ ∀ j < i, matchYearAt v.toList j = none) ∧
    findYear "2024年第5期" = some 2024 ∧
    findYear "第5期" = none ∧
    (∀ record v, dateLineValues record = [v] →
      (parse_record record).year = (findYear v).getD 0) := by
  refine ⟨parse_record_year, ?_, by decide, by decide, ?_⟩
  · intro v y
    exact findYearAux_some_iff v.toList y
  · intro record v hv
    rw [parse_record_year, hv]
    rfl

/-- Witness for C7 at a concrete one-date-line block. -/
theorem C7_witness :
    dateLineValues "%D 2024年第5期" = ["2024年第5期"] ∧
    (parse_record "%D 2024年第5期").year = 2024 := by
  refine ⟨by decide, ?_⟩
  rw [C7_year_extraction.2.2.2.2 "%D 2024年第5期" "2024年第5期" (by decide),
    C7_year_extraction.2.2.1]
  rfl

/-- C9: parsing fails exactly when the input file does not exist, with no
partial result; for every existing input it returns the (possibly empty)
decoded record list without raising, and a block none of whose lines
qualifies decodes to the all-defaults record (zero values). -/
theorem C9_failure_semantics :
    (∀ file : Option String,
      (∃ papers, parse file = Except.ok papers) ↔ file ≠ none) ∧
    (∀ content, parse (some content) = Except.ok (parseContent content)) ∧
    parse none = Except.error "FileNotFoundError" ∧
    (∀ record, (∀ l ∈ blockLines record, markerSplit l = none) →
      parse_record record = {}) ∧
    ({} : CnkiPaper).title = "" ∧ ({} : CnkiPaper).year = 0 ∧
    ({} : CnkiPaper).citations = 0 ∧ ({} : CnkiPaper).downloads = 0 ∧
    ({} : CnkiPaper).authors = [] := by
  refine ⟨?_, fun c => rfl, rfl, ?_, rfl, rfl, rfl, rfl, rfl⟩
  · intro file
    cases file with
    | none =>
      constructor
      · rintro ⟨p, hp⟩
        simp [parse] at hp
      · intro h
        exact absurd rfl h
    | some c =>
      constructor
      · intro _
        simp
      · intro _
        exact ⟨parseContent c, rfl⟩
  · intro record h
    exact foldl_processLine_skip _ _ h

/-- Witness for C9 at a concrete marker-free block. -/
theorem C9_witness :
    (∀ l ∈ blockLines "plain text", markerSplit l = none) ∧
    parse_record "plain text" = {} :=
  ⟨by decide, C9_failure_semantics.2.2.2.1 "plain text" (by decide)⟩

/-- C10: the three graph builders and the statistics aggregation leave the
record store unchanged (their state-passing translations return the store as
given), and repeating any of them — also after running the others — yields an
equal result. -/
theorem C10_no_mutation (papers : List CnkiPaper) (top_n min_freq : Nat) :
    (build_coauthorshipS papers top_n).2 = papers ∧
    (build_institutionS papers).2 = papers ∧
    (build_keywordsS papers min_freq).2 = papers ∧
    (statsOfS papers).2 = papers ∧
    (build_coauthorshipS (build_coauthorshipS papers top_n).2 top_n).1 =
      (build_coauthorshipS papers top_n).1 ∧
    (build_institutionS (build_coauthorshipS papers top_n).2).1 =
      (build_institutionS papers).1 ∧
    (build_keywordsS (build_institutionS papers).2 min_freq).1 =
      (build_keywordsS papers min_freq).1 ∧
    (statsOfS (build_keywordsS papers min_freq).2).1 = (statsOfS papers).1 :=
  ⟨rfl, rfl, rfl, rfl, rfl, rfl, rfl, rfl⟩

/-! ## Weight characterisations of the co-authorship and institution graphs -/

theorem coauth_weight_char (papers : List CnkiPaper) (top_n : Nat)
    (q : String × String) :
    (build_coauthorship papers top_n).weight? q =
      combineOpt none ((coauthPairs papers top_n).countP (fun r => pairEq r q)) := by
  rw [build_coauthorship_eq]
  exact weight?_addPairs_empty _ q

theorem inst_weight_char (papers : List CnkiPaper) (q : String × String) :
    (build_institution papers).weight? q =
      combineOpt none ((instPairs papers).countP (fun r => pairEq r q)) := by
  rw [build_institution_eq]
  exact weight?_addPairs_empty _ q

/-- C2 counterexample: a paper listing the same author twice produces a
self-loop edge of the co-authorship graph, contradicting "no edge joins a
node to itself, including when a record's author list contains the same name
more than once". -/
theorem C2_counterexample :
    selfLoopCorpus = [{ authors := ["王", "王"] }] ∧
    (build_coauthorship selfLoopCorpus 50).hasEdge "王" "王" = true ∧
    (build_coauthorship selfLoopCorpus 50).weight? ("王", "王") = some 1 := by
  refine ⟨rfl, by decide, by decide⟩

/-- C2 (amended): every edge weight of the three graphs is a positive integer
(at least 2 in the keyword graph); the keyword graph never has self-loops;
and for corpora in which no record repeats a name within its author,
institution or keyword list, the co-authorship and institution graphs have no
self-loops either and every edge weight equals the exact number of records in
which its two endpoints co-occur (under each builder's own restriction),
absent pairs having no edge. -/
theorem C2_weights (papers : List CnkiPaper) (top_n min_freq : Nat) :
    (∀ a b w, (build_coauthorship papers top_n).weight? (a, b) = some w → 1 ≤ w) ∧
    (∀ a b w, (build_institution papers).weight? (a, b) = some w → 1 ≤ w) ∧
    (∀ a b w, (build_keywords papers min_freq).weight? (a, b) = some w → 2 ≤ w) ∧
    (∀ a, (build_keywords papers min_freq).weight? (a, a) = none) ∧
    ((∀ p ∈ papers, p.authors.Nodup) →
      (∀ a, (build_coauthorship papers top_n).weight? (a, a) = none) ∧
      (∀ a b, a ≠ b →
        (build_coauthorship papers top_n).weight? (a, b) =
          (if coauthCooccurCount papers top_n a b = 0 then none
           else some (coauthCooccurCount papers top_n a b)))) ∧
    ((∀ p ∈ papers, p.all_institutions.Nodup) →
      (∀ a, (build_institution papers).weight? (a, a) = none) ∧
      (∀ a b, a ≠ b →
        (build_institution papers).weight? (a, b) =
          (if instCooccurCount papers a b = 0 then none
           else some (instCooccurCount papers a b)))) ∧
    ((∀ p ∈ papers, p.keywords.Nodup) →
      (∀ a b, a ≠ b →
        (build_keywords papers min_freq).weight? (a, b) =
          (if 2 ≤ kwCooccurCount papers min_freq a b then
            some (kwCooccurCount papers min_freq a b) else none))) := by
  refine ⟨?_, ?_, ?_, ?_, ?_, ?_, ?_⟩
  · intro a b w h
    rw [coauth_weight_char] at h
    cases hn : (coauthPairs papers top_n).countP (fun r => pairEq r (a, b)) with
    | zero =>
      rw [hn] at h
      simp [combineOpt] at h
    | succ n =>
      rw [hn] at h
      simp [combineOpt] at h
      omega
  · intro a b w h
    rw [inst_weight_char] at h
    cases hn : (instPairs papers).countP (fun r => pairEq r (a, b)) with
    | zero =>
      rw [hn] at h
      simp [combineOpt] at h
    | succ n =>
      rw [hn] at h
      simp [combineOpt] at h
      omega
  · intro a b w h
    rw [build_keywords_weight] at h
    cases hl : lookupAssoc pairEq (kwCounter papers min_freq) (a, b) with
    | none =>
      rw [hl] at h
      simp at h
    | some w0 =>
      rw [hl] at h
      by_cases h2 : 2 ≤ w0
      · simp [h2] at h
        omega
      · simp [h2] at h
  · intro a
    rw [build_keywords_weight]
    have hnone : lookupAssoc pairEq (kwCounter papers min_freq) (a, a) = none := by
      apply lookupAssoc_eq_none_of_no_match
      intro e he hcon
      have hc := kwCounter_canonical papers min_freq e he
      rcases (pairEq_iff e.1 (a, a)).mp hcon with ⟨h1, h2⟩ | ⟨h1, h2⟩ <;>
        exact hc.1 (h1.trans h2.symm)
    rw [hnone]
  · intro hnd
    constructor
    · intro a
      rw [coauth_weight_char]
      have hz : (coauthPairs papers top_n).countP (fun r => pairEq r (a, a)) = 0 := by
        rw [List.countP_eq_zero]
        intro q hq hcon
        obtain ⟨p, hp, hq2⟩ := List.mem_flatMap.mp hq
        have hnodup : (restrictAuthors papers top_n p).Nodup := by
          unfold restrictAuthors
          exact List.Nodup.filter _ (hnd p hp)
        have hne := recordPairs_ne_of_nodup _ hnodup q hq2
        rcases (pairEq_iff q (a, a)).mp hcon with ⟨h1, h2⟩ | ⟨h1, h2⟩ <;>
          exact hne (h1.trans h2.symm)
      rw [hz]
      rfl
    · intro a b hab
      rw [coauth_weight_char, countP_coauthPairs_nodup papers top_n a b hab hnd]
      cases hC : coauthCooccurCount papers top_n a b with
      | zero => simp [combineOpt]
      | succ n => simp [combineOpt]
  · intro hnd
    constructor
    · intro a
      rw [inst_weight_char]
      have hz : (instPairs papers).countP (fun r => pairEq r (a, a)) = 0 := by
        rw [List.countP_eq_zero]
        intro q hq hcon
        obtain ⟨p, hp, hq2⟩ := List.mem_flatMap.mp hq
        have hne := recordPairs_ne_of_nodup _ (hnd p hp) q hq2
        rcases (pairEq_iff q (a, a)).mp hcon with ⟨h1, h2⟩ | ⟨h1, h2⟩ <;>
          exact hne (h1.trans h2.symm)
      rw [hz]
      rfl
    · intro a b hab
      rw [inst_weight_char, countP_instPairs_nodup papers a b hab hnd]
      cases hC : instCooccurCount papers a b with
      | zero => simp [combineOpt]
      | succ n => simp [combineOpt]
  · intro hnd a b hab
    rw [build_keywords_weight, kwCounter_lookup,
      countP_kwPairs_nodup papers min_freq a b hab hnd]
    cases hC : kwCooccurCount papers min_freq a b with
    | zero => simp [combineOpt]
    | succ n =>
      by_cases h2 : 2 ≤ n + 1
      · simp [combineOpt, h2]
      · simp [combineOpt, h2]

/-- Witness for C2 at a concrete duplicate-free corpus. -/
theorem C2_witness :
    (∀ p ∈ nodupCorpus, p.authors.Nodup) ∧
    coauthCooccurCount nodupCorpus 50 "甲" "乙" = 2 ∧
    (build_coauthorship nodupCorpus 50).weight? ("甲", "乙") =
      (if coauthCooccurCount nodupCorpus 50 "甲" "乙" = 0 then none
       else some (coauthCooccurCount nodupCorpus 50 "甲" "乙")) ∧
    (build_coauthorship nodupCorpus 50).weight? ("甲", "甲") = none := by
  refine ⟨by decide, by decide, ?_, ?_⟩
  · exact ((C2_weights nodupCorpus 50 2).2.2.2.2.1 (by decide)).2 "甲" "乙" (by decide)
  · exact ((C2_weights nodupCorpus 50 2).2.2.2.2.1 (by decide)).1 "甲"

/-- C3: with `a`, `b` a pair of distinct keywords, if their accumulated
co-occurrence count over the whole corpus (over the full keyword lists) is
exactly 1, the keyword graph has no `{a,b}` edge for any `min_freq`; if both
have global frequency at least `min_freq` (and occur at all) and the
accumulated count is exactly 2, the graph has the edge with weight 2 — the
weight-≥2 threshold acting after, and independently of, the `min_freq`
vocabulary filter. -/
theorem C3_kw_thresholds (papers : List CnkiPaper) (min_freq : Nat)
    (a b : String) (hab : a ≠ b) :
    (rawKwCooccur papers a b = 1 →
      (build_keywords papers min_freq).weight? (a, b) = none) ∧
    (1 ≤ keywordFreq papers a → 1 ≤ keywordFreq papers b →
     min_freq ≤ keywordFreq papers a → min_freq ≤ keywordFreq papers b →
     rawKwCooccur papers a b = 2 →
      (build_keywords papers min_freq).weight? (a, b) = some 2) := by
  constructor
  · intro h1
    rw [build_keywords_weight, kwCounter_lookup,
      countP_kwPairs_eq_sum papers min_freq a b hab]
    have hle :
        (papers.map (fun p => pairOcc a b (restrictKeywords papers min_freq p))).sum ≤ 1 := by
      have := kwRestricted_le_raw papers min_freq a b
      omega
    rcases Nat.le_one_iff_eq_zero_or_eq_one.mp hle with h | h
    · rw [h]
      rfl
    · rw [h]
      simp [combineOpt]
  · intro hf1 hf2 hm1 hm2 hraw
    have hva : validKw papers min_freq a = true := by
      simp [validKw, hf1, hm1]
    have hvb : validKw papers min_freq b = true := by
      simp [validKw, hf2, hm2]
    rw [build_keywords_weight, kwCounter_lookup,
      countP_kwPairs_eq_sum papers min_freq a b hab,
      kwRestricted_eq_raw papers min_freq a b hva hvb, hraw]
    simp [combineOpt]

/-- Witness for C3 at a concrete corpus: one pair co-occurring twice (edge of
weight 2), one pair co-occurring once (no edge). -/
theorem C3_witness :
    ("数字" : String) ≠ "审计" ∧
    rawKwCooccur nodupCorpus "数字" "审计" = 2 ∧
    2 ≤ keywordFreq nodupCorpus "数字" ∧ 2 ≤ keywordFreq nodupCorpus "审计" ∧
    (build_keywords nodupCorpus 2).weight? ("数字", "审计") = some 2 ∧
    rawKwCooccur nodupCorpus "机器" "风险" = 1 ∧
    (build_keywords nodupCorpus 2).weight? ("机器", "风险") = none := by
  refine ⟨by decide, by decide, by decide, by decide, ?_, by decide, ?_⟩
  · exact (C3_kw_thresholds nodupCorpus 2 "数字" "审计" (by decide)).2
      (by decide) (by decide) (by decide) (by decide) (by decide)
  · exact (C3_kw_thresholds nodupCorpus 2 "机器" "风险" (by decide)).1 (by decide)

/-- C4 counterexample: a paper listing an author twice makes the node's
`paper_count` attribute 2 although only 1 paper is by that author, and its
`citations` attribute twice the paper's citation count. -/
theorem C4_counterexample :
    multiAuthorCorpus = [{ authors := ["张", "张", "李"], citations := 7 }] ∧
    "张" ∈ (build_coauthorship multiAuthorCorpus 50).nodes ∧
    coauthPaperCount multiAuthorCorpus "张" = 2 ∧
    multiAuthorCorpus.countP (fun p => decide ("张" ∈ p.authors)) = 1 ∧
    coauthCitations multiAuthorCorpus "张" = 14 ∧
    ((multiAuthorCorpus.filter (fun p => decide ("张" ∈ p.authors))).map
      (fun p => p.citations)).sum = 7 ∧
    (2 : Nat) ≠ 1 ∧ (14 : Nat) ≠ 7 := by
  refine ⟨rfl, by decide, by decide, by decide, by decide, by decide,
    by decide, by decide⟩

/-- C4 (amended): every node of the co-authorship graph carries
`paper_count` equal to the author's occurrence count summed over the whole
*unfiltered* corpus (each paper counted once per listing of the name, not
only papers represented by retained edges — the formula does not mention
`top_n`), and `citations` equal to the correspondingly weighted sum of
citation counts. -/
theorem C4_node_attributes (papers : List CnkiPaper) (top_n : Nat) (n : String)
    (hn : n ∈ (build_coauthorship papers top_n).nodes) :
    coauthPaperCount papers n = (papers.map (fun p => p.authors.count n)).sum ∧
    coauthCitations papers n =
      (papers.map (fun p => p.authors.count n * p.citations)).sum := by
  have hne : n ≠ "" :=
    topAuthorNames_ne papers top_n n (coauth_node_in_top papers top_n n hn)
  exact ⟨coauthPaperCount_eq papers n hne, coauthCitations_eq papers n hne⟩

/-- Witness for C4 at a concrete corpus. -/
theorem C4_witness :
    "甲" ∈ (build_coauthorship nodupCorpus 50).nodes ∧
    coauthPaperCount nodupCorpus "甲" =
      (nodupCorpus.map (fun p => p.authors.count "甲")).sum ∧
    coauthCitations nodupCorpus "甲" =
      (nodupCorpus.map (fun p => p.authors.count "甲" * p.citations)).sum :=
  ⟨by decide, C4_node_attributes nodupCorpus 50 "甲" (by decide)⟩

/-- C5 counterexample: an author listed twice in one paper is top-ranked and
co-authors no paper with *another* retained author, yet receives a node
(through the self-loop generated by the duplicate), contradicting the claim
that such an author receives no node at all. -/
theorem C5_counterexample :
    dupAuthorCorpus = [{ authors := ["赵", "赵"] }] ∧
    "赵" ∈ topAuthorNames dupAuthorCorpus 50 ∧
    dupAuthorCorpus.countP (fun p => decide (∃ m ∈ p.authors, m ≠ "赵")) = 0 ∧
    "赵" ∈ (build_coauthorship dupAuthorCorpus 50).nodes := by
  refine ⟨rfl, by decide, by decide, by decide⟩

/-- C5 (amended): the node set of each graph is exactly the endpoints of its
edges; for corpora in which no record repeats an author name, an author is a
node of the co-authorship graph iff some record's top-restricted author list
contains it together with a *different* retained author; and a keyword is a
node of the keyword graph iff it has at least one edge. -/
theorem C5_nodes (papers : List CnkiPaper) (top_n min_freq : Nat) :
    (∀ n, n ∈ (build_coauthorship papers top_n).nodes ↔
        ∃ e ∈ (build_coauthorship papers top_n).edges, n = e.1.1 ∨ n = e.1.2) ∧
    ((∀ p ∈ papers, p.authors.Nodup) →
      ∀ n, n ∈ (build_coauthorship papers top_n).nodes ↔
        ∃ p ∈ papers, n ∈ restrictAuthors papers top_n p ∧
          ∃ m ∈ restrictAuthors papers top_n p, m ≠ n) ∧
    (∀ kw, kw ∈ (build_keywords papers min_freq).nodes ↔
        ∃ kw2, (build_keywords papers min_freq).hasEdge kw kw2 = true) := by
  refine ⟨fun n => mem_nodes_iff _ n, ?_, ?_⟩
  · intro hnd n
    rw [build_coauthorship_eq, mem_nodes_addPairs_empty]
    constructor
    · rintro ⟨q, hq, he⟩
      obtain ⟨p, hp, hq2⟩ := List.mem_flatMap.mp hq
      obtain ⟨hnmem, hlen⟩ :=
        (recordPairs_endpoint_iff (restrictAuthors papers top_n p) n).mp ⟨q, hq2, he⟩
      have hnodup : (restrictAuthors papers top_n p).Nodup := by
        unfold restrictAuthors
        exact List.Nodup.filter _ (hnd p hp)
      obtain ⟨m, hm, hne⟩ := exists_other_mem_of_nodup hnodup hnmem hlen
      exact ⟨p, hp, hnmem, m, hm, hne⟩
    · rintro ⟨p, hp, hnmem, m, hm, hne⟩
      have hlen := two_le_length_of_two_mem hm hnmem hne
      obtain ⟨q, hq2, he⟩ :=
        (recordPairs_endpoint_iff (restrictAuthors papers top_n p) n).mpr ⟨hnmem, hlen⟩
      exact ⟨q, List.mem_flatMap.mpr ⟨p, hp, hq2⟩, he⟩
  · intro kw
    rw [mem_nodes_iff]
    constructor
    · rintro ⟨e, he, hkw | hkw⟩
      · refine ⟨e.1.2, ?_⟩
        unfold Graph.hasEdge Graph.weight?
        refine lookupAssoc_isSome_of_mem _ _ e he ?_
        rw [hkw]
        exact (pairEq_iff e.1 (e.1.1, e.1.2)).mpr (Or.inl ⟨rfl, rfl⟩)
      · refine ⟨e.1.1, ?_⟩
        unfold Graph.hasEdge Graph.weight?
        refine lookupAssoc_isSome_of_mem _ _ e he ?_
        rw [hkw]
        exact (pairEq_iff e.1 (e.1.2, e.1.1)).mpr (Or.inr ⟨rfl, rfl⟩)
    · rintro ⟨kw2, h⟩
      unfold Graph.hasEdge at h
      rw [Option.isSome_iff_exists] at h
      obtain ⟨w, hw⟩ := h
      obtain ⟨e, he, heq, -⟩ := lookupAssoc_some_mem _ _ _ hw
      refine ⟨e, he, ?_⟩
      rcases (pairEq_iff e.1 (kw, kw2)).mp heq with ⟨h1, h2⟩ | ⟨h1, h2⟩
      · exact Or.inl h1.symm
      · exact Or.inr h2.symm

/-- Witness for C5 at a concrete duplicate-free corpus. -/
theorem C5_witness :
    (∀ p ∈ nodupCorpus, p.authors.Nodup) ∧
    ("甲" ∈ (build_coauthorship nodupCorpus 50).nodes ↔
      ∃ p ∈ nodupCorpus, "甲" ∈ restrictAuthors nodupCorpus 50 p ∧
        ∃ m ∈ restrictAuthors nodupCorpus 50 p, m ≠ "甲") :=
  ⟨by decide, ((C5_nodes nodupCorpus 50 2).2.1 (by decide)) "甲"⟩

/-- C8: the years component of the statistics is the ascending duplicate-free
list of exactly the record years strictly greater than 2000; appending a
record with year at most 2000 leaves the year list (hence its min/max span)
unchanged while still raising the total by one; and the other counters do not
depend on the year field at all. -/
theorem C8_year_filter (papers : List CnkiPaper) :
    (statsOf papers).total = papers.length ∧
    (∀ y, y ∈ (statsOf papers).years ↔ 2000 < y ∧ ∃ p ∈ papers, p.year = y) ∧
    (statsOf papers).years.Sorted (· ≤ ·) ∧
    (statsOf papers).years.Nodup ∧
    (∀ p : CnkiPaper, p.year ≤ 2000 →
      (statsOf (papers ++ [p])).years = (statsOf papers).years ∧
      (statsOf (papers ++ [p])).total = papers.length + 1) ∧
    (∀ (p : CnkiPaper) (y' : Nat),
      (statsOf (papers ++ [{ p with year := y' }])).authors =
        (statsOf (papers ++ [p])).authors ∧
      (statsOf (papers ++ [{ p with year := y' }])).journals =
        (statsOf (papers ++ [p])).journals ∧
      (statsOf (papers ++ [{ p with year := y' }])).institutions =
        (statsOf (papers ++ [p])).institutions ∧
      (statsOf (papers ++ [{ p with year := y' }])).total =
        (statsOf (papers ++ [p])).total) := by
  refine ⟨rfl, statsOf_years_mem papers, statsOf_years_sorted papers,
    statsOf_years_nodup papers, ?_, ?_⟩
  · intro p hp
    refine ⟨statsOf_append_low_year papers p hp, ?_⟩
    show (papers ++ [p]).length = papers.length + 1
    simp
  · intro p y'
    have hflat : (papers ++ [{ p with year := y' }]).flatMap (fun q : CnkiPaper => q.authors) =
        (papers ++ [p]).flatMap (fun q : CnkiPaper => q.authors) := by
      rw [List.flatMap_append, List.flatMap_append]
      rfl
    have hj : (papers ++ [{ p with year := y' }]).map (fun q : CnkiPaper => q.journal) =
        (papers ++ [p]).map (fun q : CnkiPaper => q.journal) := by
      rw [List.map_append, List.map_append]
      rfl
    have hi : (papers ++ [{ p with year := y' }]).map (fun q : CnkiPaper => q.institution) =
        (papers ++ [p]).map (fun q : CnkiPaper => q.institution) := by
      rw [List.map_append, List.map_append]
      rfl
    refine ⟨?_, ?_, ?_, ?_⟩
    · show (((papers ++ [{ p with year := y' }]).flatMap (fun q : CnkiPaper => q.authors)).dedup).length =
        (((papers ++ [p]).flatMap (fun q : CnkiPaper => q.authors)).dedup).length
      rw [hflat]
    · show ((((papers ++ [{ p with year := y' }]).map (fun q : CnkiPaper => q.journal)).filter
          (fun j => j ≠ "")).dedup).length =
        ((((papers ++ [p]).map (fun q : CnkiPaper => q.journal)).filter
          (fun j => j ≠ "")).dedup).length
      rw [hj]
    · show ((((papers ++ [{ p with year := y' }]).map (fun q : CnkiPaper => q.institution)).filter
          (fun i => i ≠ "")).dedup).length =
        ((((papers ++ [p]).map (fun q : CnkiPaper => q.institution)).filter
          (fun i => i ≠ "")).dedup).length
      rw [hi]
    · show (papers ++ [{ p with year := y' }]).length = (papers ++ [p]).length
      rw [List.length_append, List.length_append]
      rfl

/-- Witness for C8 at a concrete corpus with a below-threshold year. -/
theorem C8_witness :
    ({ year := 1998 } : CnkiPaper).year ≤ 2000 ∧
    (statsOf ([({ year := 2024 } : CnkiPaper)] ++ [{ year := 1998 }])).years =
      (statsOf [({ year := 2024 } : CnkiPaper)]).years ∧
    (statsOf ([({ year := 2024 } : CnkiPaper)] ++ [{ year := 1998 }])).total = 2 ∧
    (statsOf [({ year := 2024 } : CnkiPaper)]).years = [2024] := by
  refine ⟨by decide,
    ((C8_year_filter [({ year := 2024 } : CnkiPaper)]).2.2.2.2.1
      ({ year := 1998 }) (by decide)).1,
    ((C8_year_filter [({ year := 2024 } : CnkiPaper)]).2.2.2.2.1
      ({ year := 1998 }) (by decide)).2,
    by decide⟩
